import Mathlib

/-!
Verification of the core of `sort-Xcode-project-file.py`, a script that
sorts certain arrays inside Xcode `project.pbxproj` files.

The program is embedded shallowly: a Python `str` is modelled as a
`List Char` (its sequence of code points), the compiled regular
expressions are compiled by hand into deterministic character-list
matchers with the same backtracking semantics on the inputs the program
feeds them, and the line-scanning loop of `sort_project_file` becomes a
recursive function `processLines` over the list of lines.  Python's
`\s` character class is modelled by `isPySpace` (the Unicode whitespace
set used by `re` on `str` patterns), `\d` by `isNdDigit` (the Unicode
`Nd` category, given as an explicit table of code-point ranges),
`str.isdigit` by `isPyDigitChar` (`Nd` plus the Numeric_Type=Digit-only
code points), and `str.lower` by `pyLowerChar` (the full single-character
mapping table, compressed into arithmetic runs, plus the one
two-character mapping at `U+0130`).  `int()` applied to a token that
passed `isdigit` succeeds exactly when every character is in `Nd`;
the `ValueError` it otherwise raises — and which aborts the whole
program, since nothing catches it — is modelled by `Option`-valued sort
keys, with a key-definedness guard at each array sort in `processLines`.
-/

namespace SortXcodeProj

/-- A line of the project file: the sequence of its code points. -/
abbrev Line := List Char

/-- Python `\s` on `str` patterns: the Unicode whitespace characters. -/
def isPySpace (c : Char) : Bool :=
  c == ' ' || c == '\t' || c == '\n' || c == '\r' || c == '\x0b' ||
  c == '\x0c' || c == '\x1c' || c == '\x1d' || c == '\x1e' || c == '\x1f' ||
  c == '\x85' || c == '\xa0' || c == '\u1680' ||
  ('\u2000' ≤ c && c ≤ '\u200a') || c == '\u2028' || c == '\u2029' ||
  c == '\u202f' || c == '\u205f' || c == '\u3000'

/-- The maximal runs of consecutive Unicode decimal digits (category
`Nd`), as pairs of first and last code point; inside a run the decimal
value of a code point is its offset modulo 10.  This is the `\d`
character class the tokenizer regex uses on `str` patterns. -/
def ndRanges : List (Nat × Nat) :=
  [   (48, 57), (1632, 1641), (1776, 1785), (1984, 1993),
   (2406, 2415), (2534, 2543), (2662, 2671), (2790, 2799),
   (2918, 2927), (3046, 3055), (3174, 3183), (3302, 3311),
   (3430, 3439), (3558, 3567), (3664, 3673), (3792, 3801),
   (3872, 3881), (4160, 4169), (4240, 4249), (6112, 6121),
   (6160, 6169), (6470, 6479), (6608, 6617), (6784, 6793),
   (6800, 6809), (6992, 7001), (7088, 7097), (7232, 7241),
   (7248, 7257), (42528, 42537), (43216, 43225), (43264, 43273),
   (43472, 43481), (43504, 43513), (43600, 43609), (44016, 44025),
   (65296, 65305), (66720, 66729), (68912, 68921), (69734, 69743),
   (69872, 69881), (69942, 69951), (70096, 70105), (70384, 70393),
   (70736, 70745), (70864, 70873), (71248, 71257), (71360, 71369),
   (71472, 71481), (71904, 71913), (72016, 72025), (72784, 72793),
   (73040, 73049), (73120, 73129), (92768, 92777), (92864, 92873),
   (93008, 93017), (120782, 120831), (123200, 123209), (123632, 123641),
   (125264, 125273), (130032, 130041)]

/-- Membership in the `\d` class: a Unicode decimal digit. -/
def isNdDigit (c : Char) : Bool :=
  ndRanges.any fun r => r.1 ≤ c.toNat && c.toNat ≤ r.2

/-- The decimal value of a Unicode decimal digit. -/
def ndDigitVal (c : Char) : Nat :=
  match ndRanges.find? (fun r => r.1 ≤ c.toNat && c.toNat ≤ r.2) with
  | some r => (c.toNat - r.1) % 10
  | none => 0

/-- Code points satisfying `str.isdigit` without being decimal digits
(Numeric_Type=Digit only, e.g. superscript digits); `int()` raises
`ValueError` on a string of these. -/
def digitExtraRanges : List (Nat × Nat) :=
  [   (178, 179), (185, 185), (4969, 4977), (6618, 6618),
   (8304, 8304), (8308, 8313), (8320, 8329), (9312, 9320),
   (9332, 9340), (9352, 9360), (9450, 9450), (9461, 9469),
   (9471, 9471), (10102, 10110), (10112, 10120), (10122, 10130),
   (68160, 68163), (69216, 69224), (69714, 69722), (127232, 127242)]

/-- Python `str.isdigit` at the character level. -/
def isPyDigitChar (c : Char) : Bool :=
  isNdDigit c || digitExtraRanges.any fun r => r.1 ≤ c.toNat && c.toNat ≤ r.2

/-- The nontrivial single-character mappings of `str.lower`, compressed
into arithmetic runs `(first, last, step, firstLower)`: every code point
`cp` with `first ≤ cp ≤ last` and `(cp - first) % step = 0` lowers to
`firstLower + (cp - first)`. -/
def lowerRuns : List (Nat × Nat × Nat × Nat) :=
  [   (65, 90, 1, 97), (192, 214, 1, 224),
   (216, 222, 1, 248), (256, 302, 2, 257),
   (306, 310, 2, 307), (313, 327, 2, 314),
   (330, 374, 2, 331), (376, 376, 1, 255),
   (377, 381, 2, 378), (385, 385, 1, 595),
   (386, 388, 2, 387), (390, 390, 1, 596),
   (391, 391, 1, 392), (393, 394, 1, 598),
   (395, 395, 1, 396), (398, 398, 1, 477),
   (399, 399, 1, 601), (400, 400, 1, 603),
   (401, 401, 1, 402), (403, 403, 1, 608),
   (404, 404, 1, 611), (406, 406, 1, 617),
   (407, 407, 1, 616), (408, 408, 1, 409),
   (412, 412, 1, 623), (413, 413, 1, 626),
   (415, 415, 1, 629), (416, 420, 2, 417),
   (422, 422, 1, 640), (423, 423, 1, 424),
   (425, 425, 1, 643), (428, 428, 1, 429),
   (430, 430, 1, 648), (431, 431, 1, 432),
   (433, 434, 1, 650), (435, 437, 2, 436),
   (439, 439, 1, 658), (440, 440, 1, 441),
   (444, 444, 1, 445), (452, 452, 1, 454),
   (453, 453, 1, 454), (455, 455, 1, 457),
   (456, 456, 1, 457), (458, 458, 1, 460),
   (459, 475, 2, 460), (478, 494, 2, 479),
   (497, 497, 1, 499), (498, 500, 2, 499),
   (502, 502, 1, 405), (503, 503, 1, 447),
   (504, 542, 2, 505), (544, 544, 1, 414),
   (546, 562, 2, 547), (570, 570, 1, 11365),
   (571, 571, 1, 572), (573, 573, 1, 410),
   (574, 574, 1, 11366), (577, 577, 1, 578),
   (579, 579, 1, 384), (580, 580, 1, 649),
   (581, 581, 1, 652), (582, 590, 2, 583),
   (880, 882, 2, 881), (886, 886, 1, 887),
   (895, 895, 1, 1011), (902, 902, 1, 940),
   (904, 906, 1, 941), (908, 908, 1, 972),
   (910, 911, 1, 973), (913, 929, 1, 945),
   (931, 939, 1, 963), (975, 975, 1, 983),
   (984, 1006, 2, 985), (1012, 1012, 1, 952),
   (1015, 1015, 1, 1016), (1017, 1017, 1, 1010),
   (1018, 1018, 1, 1019), (1021, 1023, 1, 891),
   (1024, 1039, 1, 1104), (1040, 1071, 1, 1072),
   (1120, 1152, 2, 1121), (1162, 1214, 2, 1163),
   (1216, 1216, 1, 1231), (1217, 1229, 2, 1218),
   (1232, 1326, 2, 1233), (1329, 1366, 1, 1377),
   (4256, 4293, 1, 11520), (4295, 4295, 1, 11559),
   (4301, 4301, 1, 11565), (5024, 5103, 1, 43888),
   (5104, 5109, 1, 5112), (7312, 7354, 1, 4304),
   (7357, 7359, 1, 4349), (7680, 7828, 2, 7681),
   (7838, 7838, 1, 223), (7840, 7934, 2, 7841),
   (7944, 7951, 1, 7936), (7960, 7965, 1, 7952),
   (7976, 7983, 1, 7968), (7992, 7999, 1, 7984),
   (8008, 8013, 1, 8000), (8025, 8031, 2, 8017),
   (8040, 8047, 1, 8032), (8072, 8079, 1, 8064),
   (8088, 8095, 1, 8080), (8104, 8111, 1, 8096),
   (8120, 8121, 1, 8112), (8122, 8123, 1, 8048),
   (8124, 8124, 1, 8115), (8136, 8139, 1, 8050),
   (8140, 8140, 1, 8131), (8152, 8153, 1, 8144),
   (8154, 8155, 1, 8054), (8168, 8169, 1, 8160),
   (8170, 8171, 1, 8058), (8172, 8172, 1, 8165),
   (8184, 8185, 1, 8056), (8186, 8187, 1, 8060),
   (8188, 8188, 1, 8179), (8486, 8486, 1, 969),
   (8490, 8490, 1, 107), (8491, 8491, 1, 229),
   (8498, 8498, 1, 8526), (8544, 8559, 1, 8560),
   (8579, 8579, 1, 8580), (9398, 9423, 1, 9424),
   (11264, 11311, 1, 11312), (11360, 11360, 1, 11361),
   (11362, 11362, 1, 619), (11363, 11363, 1, 7549),
   (11364, 11364, 1, 637), (11367, 11371, 2, 11368),
   (11373, 11373, 1, 593), (11374, 11374, 1, 625),
   (11375, 11375, 1, 592), (11376, 11376, 1, 594),
   (11378, 11378, 1, 11379), (11381, 11381, 1, 11382),
   (11390, 11391, 1, 575), (11392, 11490, 2, 11393),
   (11499, 11501, 2, 11500), (11506, 11506, 1, 11507),
   (42560, 42604, 2, 42561), (42624, 42650, 2, 42625),
   (42786, 42798, 2, 42787), (42802, 42862, 2, 42803),
   (42873, 42875, 2, 42874), (42877, 42877, 1, 7545),
   (42878, 42886, 2, 42879), (42891, 42891, 1, 42892),
   (42893, 42893, 1, 613), (42896, 42898, 2, 42897),
   (42902, 42920, 2, 42903), (42922, 42922, 1, 614),
   (42923, 42923, 1, 604), (42924, 42924, 1, 609),
   (42925, 42925, 1, 620), (42926, 42926, 1, 618),
   (42928, 42928, 1, 670), (42929, 42929, 1, 647),
   (42930, 42930, 1, 669), (42931, 42931, 1, 43859),
   (42932, 42946, 2, 42933), (42948, 42948, 1, 42900),
   (42949, 42949, 1, 642), (42950, 42950, 1, 7566),
   (42951, 42953, 2, 42952), (42960, 42960, 1, 42961),
   (42966, 42968, 2, 42967), (42997, 42997, 1, 42998),
   (65313, 65338, 1, 65345), (66560, 66599, 1, 66600),
   (66736, 66771, 1, 66776), (66928, 66938, 1, 66967),
   (66940, 66954, 1, 66979), (66956, 66962, 1, 66995),
   (66964, 66965, 1, 67003), (68736, 68786, 1, 68800),
   (71840, 71871, 1, 71872), (93760, 93791, 1, 93792),
   (125184, 125217, 1, 125218)]

/-- Python `str.lower` on one character.  `U+0130` is the single code
point whose lowercase expands to two characters. -/
def pyLowerChar (c : Char) : List Char :=
  if c.toNat = 304 then [Char.ofNat 105, Char.ofNat 775]
  else
    match lowerRuns.find? (fun r =>
        r.1 ≤ c.toNat && c.toNat ≤ r.2.1 && (c.toNat - r.1) % r.2.2.1 == 0) with
    | some r => [Char.ofNat (r.2.2.2 + (c.toNat - r.1))]
    | none => [c]

/-- Python `str.lower` on a whole string. -/
def pyLower (s : Line) : Line := s.flatMap pyLowerChar

/-- The `[A-Fa-f0-9]` class of the entry regexes (Xcode object IDs). -/
def isHexChar (c : Char) : Bool :=
  ('0' ≤ c && c ≤ '9') || ('A' ≤ c && c ≤ 'F') || ('a' ≤ c && c ≤ 'f')

/-- Drop the maximal whitespace prefix (`\s*` followed by a
non-whitespace literal is deterministic). -/
def dropWs (cs : Line) : Line := cs.dropWhile isPySpace

/-- The maximal whitespace prefix itself. -/
def takeWs (cs : Line) : Line := cs.takeWhile isPySpace

/-- Tail of the array-header regexes after the array name:
`\s* = \s* \( \s* $`. -/
def headerTail (cs : Line) : Bool :=
  match dropWs cs with
  | '=' :: r1 =>
    match dropWs r1 with
    | '(' :: r2 => dropWs r2 == []
    | _ => false
  | _ => false

/-- `REGEX_FILES_ARRAY`: `^(\s*)files\s*=\s*\(\s*$`; returns the captured
indent on success. -/
def matchFilesHeader (l : Line) : Option Line :=
  let rest := dropWs l
  if ("files".data.isPrefixOf rest && headerTail (rest.drop 5)) then
    some (takeWs l)
  else
    none

/-- The alternation of `REGEX_ARRAY_START`, in source order. -/
def arrayNames : List Line :=
  ["children".data, "buildConfigurations".data, "targets".data,
   "packageProductDependencies".data, "packageReferences".data]

/-- `REGEX_ARRAY_START`: `^(\s*)(children|…)\s*=\s*\(\s*$`; returns the
captured indent and array name on success. -/
def matchArrayStart (l : Line) : Option (Line × Line) :=
  let rest := dropWs l
  (arrayNames.find? fun n => n.isPrefixOf rest && headerTail (rest.drop n.length)).map
    fun n => (takeWs l, n)

/-- The terminator test of `read_array_entries`:
`re.match(re.escape(end_marker) + r"\s*$", line)`. -/
def isTerminatorLine (em : Line) (l : Line) : Bool :=
  em.isPrefixOf l && (l.drop em.length).all isPySpace

/-- The common prefix of both entry regexes:
`^\s*[A-Fa-f0-9]{24}\s+/\*`; returns the remainder of the line after the
comment opener. -/
def afterCommentOpen (cs : Line) : Option Line :=
  let r := dropWs cs
  let hex := r.take 24
  if hex.length == 24 && hex.all isHexChar then
    let r2 := r.drop 24
    let r3 := dropWs r2
    if r3.length < r2.length then
      match r3 with
      | '/' :: '*' :: t => some t
      | _ => none
    else none
  else none

/-- Continuation of `REGEX_CHILD_ENTRY` after the lazy capture:
`\s*\*/,$`. -/
def tailMatchChild (cs : Line) : Bool :=
  dropWs cs == ['*', '/', ',']

/-- Continuation of `REGEX_FILE_ENTRY` after the lazy capture:
`\s*\*/\s+in\s+` (rest of the line unconstrained). -/
def tailMatchFile (cs : Line) : Bool :=
  match dropWs cs with
  | '*' :: '/' :: r =>
    let r2 := dropWs r
    decide (r2.length < r.length) &&
      (match r2 with
       | 'i' :: 'n' :: r3 =>
         match r3 with
         | c :: _ => isPySpace c
         | [] => false
       | _ => false)
  | _ => false

/-- Shortest nonempty prefix of `cs` whose remainder satisfies `check`:
the lazy `(.+?)` capture scanning forward. -/
def findShortestCap (check : Line → Bool) : Line → Option Line
  | [] => none
  | c :: cs => if check cs then some [c] else (findShortestCap check cs).map (c :: ·)

/-- The capture of `\s*(.+?)` followed by `check`, with the regex engine's
backtracking order: the leading `\s*` is greedy, and is given back one
character (which then becomes the capture) only when no capture works
after the maximal whitespace run. -/
def lazyCapture (check : Line → Bool) (t : Line) : Option Line :=
  let rest := dropWs t
  match findShortestCap check rest with
  | some cap => some cap
  | none =>
    match (takeWs t).getLast? with
    | some c => if check rest then some [c] else none
    | none => none

/-- Full match of `REGEX_CHILD_ENTRY` against a line, returning the
captured name. -/
def childCapture (l : Line) : Option Line :=
  match afterCommentOpen l with
  | some t => lazyCapture tailMatchChild t
  | none => none

/-- Full match of `REGEX_FILE_ENTRY` against a line, returning the
captured name. -/
def fileCapture (l : Line) : Option Line :=
  match afterCommentOpen l with
  | some t => lazyCapture tailMatchFile t
  | none => none

/-- `extract_filename(line, REGEX_CHILD_ENTRY)`: the captured name, or
the empty string when the line does not match. -/
def extractChildName (l : Line) : Line :=
  (childCapture l).getD []

/-- `extract_filename(line, REGEX_FILE_ENTRY)`. -/
def extractFileName (l : Line) : Line :=
  (fileCapture l).getD []

/-- The `_KNOWN_FILES` allow-list. -/
def knownFiles : List Line := ["create_hash_table".data]

/-- The `_KNOWN_FILES_LC` allow-list. -/
def knownFilesLC : List Line := knownFiles.map pyLower

/-- `is_directory(filename, case_insensitive)`: no `.` in the name and
not on the extensionless allow-list. -/
def is_directory (ci : Bool) (filename : Line) : Bool :=
  if filename.contains '.' then false
  else
    let lookup := if ci then knownFilesLC else knownFiles
    let name := if ci then pyLower filename else filename
    !(lookup.contains name)

/-- A token of the natural sort key: Python's `(0, int(tok), len(tok))`
and `(1, text)` tuples. -/
inductive NTok where
  | num (value : Nat) (digits : Nat)
  | text (s : Line)
deriving DecidableEq, Repr

/-- The character class of the regex branch that matched at `c`: digits
continue a `\d+` match, anything else continues a `[^\d]+` match. -/
def runClass (c : Char) : Char → Bool :=
  if isNdDigit c then isNdDigit else (fun x => !isNdDigit x)

/-- Maximal-run tokenizer `_TOKENIZE = (\d+|[^\d]+)` via `findall`: each
match takes the head character plus the longest following run of the same
class (digit or non-digit). -/
def tokenizeGo : Nat → Line → List Line
  | _, [] => []
  | 0, _ :: _ => []
  | fuel + 1, c :: cs =>
    (c :: cs.takeWhile (runClass c)) :: tokenizeGo fuel (cs.dropWhile (runClass c))

/-- The tokenizer itself; the fuel, one unit per match, is bounded by the
length of the string, so it never runs out. -/
def tokenize (cs : Line) : List Line := tokenizeGo cs.length cs

/-- Python `int` on a run of decimal digits, any script. -/
def digitsToNat (cs : Line) : Nat :=
  cs.foldl (fun a c => a * 10 + ndDigitVal c) 0

/-- `map` over a list with a fallible element function, failing at the
first failure — the way an exception raised while converting one token
aborts the whole key computation. -/
def mapOpt (f : α → Option β) : List α → Option (List β)
  | [] => some []
  | a :: as =>
    match f a with
    | none => none
    | some b => (mapOpt f as).map fun bs => b :: bs

/-- Python `int` on a token that passed `str.isdigit`: it succeeds
exactly when every character is a decimal digit (`Nd`), and raises
`ValueError` (here `none`) on the Numeric_Type=Digit-only characters
such as superscripts. -/
def intOfToken (tok : Line) : Option Nat :=
  if tok.all isNdDigit then some (digitsToNat tok) else none

/-- The per-token branch of `natural_sort_key`: `(0, int(tok), len(tok))`
when `tok.isdigit()`, else `(1, folded text)`; `none` is the raised
`ValueError` of `int`. -/
def tokenKey (ci : Bool) (tok : Line) : Option NTok :=
  if !tok.isEmpty && tok.all isPyDigitChar then
    (intOfToken tok).map fun v => NTok.num v tok.length
  else
    some (.text (if ci then pyLower tok else tok))

/-- `natural_sort_key(s, case_insensitive)`: `none` models the
uncaught `ValueError` of `int(token)` on an isdigit-true token
containing a non-decimal digit. -/
def natural_sort_key (ci : Bool) (s : Line) : Option (List NTok) :=
  mapOpt (tokenKey ci) (tokenize s)

/-- `uniq`'s loop, with the Python `seen` set modelled by a list. -/
def uniqAux (seen : List Line) : List Line → List Line
  | [] => []
  | x :: xs => if x ∈ seen then uniqAux seen xs else x :: uniqAux (x :: seen) xs

/-- `uniq(items)`: drop every repetition of an already-seen line. -/
def uniq (items : List Line) : List Line := uniqAux [] items

end SortXcodeProj

namespace SortXcodeProj

/-- Three-way comparison on naturals, the order Python uses on the `int`
components of key tuples. -/
def natCmp (a b : Nat) : Ordering :=
  if a < b then .lt else if b < a then .gt else .eq

/-- Python compares characters by code point. -/
def charCmp (a b : Char) : Ordering := natCmp a.toNat b.toNat

/-- Python `False < True` on the leading component of `children_sort_key`. -/
def boolCmp (a b : Bool) : Ordering :=
  natCmp (if a then 1 else 0) (if b then 1 else 0)

/-- Lexicographic comparison of sequences, as Python compares lists,
tuples and strings. -/
def listCmp (cmp : α → α → Ordering) : List α → List α → Ordering
  | [], [] => .eq
  | [], _ :: _ => .lt
  | _ :: _, [] => .gt
  | a :: as, b :: bs => (cmp a b).then (listCmp cmp as bs)

/-- Comparison of key tokens: Python tuple comparison on
`(0, value, digits)` and `(1, text)`; the tag makes every numeric token
less than every text token. -/
def ntokCmp : NTok → NTok → Ordering
  | .num v1 d1, .num v2 d2 => (natCmp v1 v2).then (natCmp d1 d2)
  | .num _ _, .text _ => .lt
  | .text _, .num _ _ => .gt
  | .text a, .text b => listCmp charCmp a b

/-- Comparison of whole natural sort keys. -/
def keyCmp (a b : List NTok) : Ordering := listCmp ntokCmp a b

/-- `children_sort_key(line, case_insensitive)`; `none` when the key
computation raises. -/
def children_sort_key (ci : Bool) (l : Line) : Option (Bool × List NTok) :=
  let name := extractChildName l
  (natural_sort_key ci name).map fun k => (!is_directory ci name, k)

/-- `files_sort_key(line, case_insensitive)`; `none` when the key
computation raises. -/
def files_sort_key (ci : Bool) (l : Line) : Option (List NTok) :=
  natural_sort_key ci (extractFileName l)

/-- Python tuple comparison on `children_sort_key` values. -/
def childKeyCmp (a b : Bool × List NTok) : Ordering :=
  (boolCmp a.1 b.1).then (keyCmp a.2 b.2)

/-- Extension of a comparison to `Option`, used to state order
properties of the key functions on all lines: undefined keys tie with
each other and come after every defined key.  The program never
actually compares an undefined key — computing it raises and aborts the
run, which `processLines` maps to `none` — so any total extension
describes the sort it performs on defined keys; this one keeps those
lines in the order the program gives them. -/
def optCmp (cmp : α → α → Ordering) : Option α → Option α → Ordering
  | none, none => .eq
  | none, some _ => .gt
  | some _, none => .lt
  | some a, some b => cmp a b

/-- The (non-strict) order on lines induced by `files_sort_key`, the one
`sorted` uses for `files` arrays. -/
def filesLe (ci : Bool) (a b : Line) : Prop :=
  optCmp keyCmp (files_sort_key ci a) (files_sort_key ci b) ≠ .gt

/-- The (non-strict) order on lines induced by `children_sort_key`, the
one `sorted` uses for named arrays. -/
def childrenLe (ci : Bool) (a b : Line) : Prop :=
  optCmp childKeyCmp (children_sort_key ci a) (children_sort_key ci b) ≠ .gt

instance (ci : Bool) : DecidableRel (filesLe ci) := fun _ _ =>
  instDecidableNot

instance (ci : Bool) : DecidableRel (childrenLe ci) := fun _ _ =>
  instDecidableNot

/-- The sorted, deduplicated body that replaces a `files` array body:
`sorted(uniq(array_lines), key=files_sort_key)` (a stable ascending
sort, modelled by insertion sort). -/
def sortFilesBody (ci : Bool) (body : List Line) : List Line :=
  List.insertionSort (filesLe ci) (uniq body)

/-- The sorted, deduplicated body that replaces a named array body:
`sorted(uniq(array_lines), key=children_sort_key)`. -/
def sortChildrenBody (ci : Bool) (body : List Line) : List Line :=
  List.insertionSort (childrenLe ci) (uniq body)

/-- `read_array_entries`: collect lines until the first one matching the
terminator; `none` models the `RuntimeError` raised at end of input. -/
def readArrayEntries (em : Line) : List Line → Option (List Line × Line × List Line)
  | [] => none
  | l :: ls =>
    if isTerminatorLine em l then some ([], l, ls)
    else
      match readArrayEntries em ls with
      | none => none
      | some (es, e, rest) => some (l :: es, e, rest)

/-- The `PBXFrameworksBuildPhase` begin marker substring. -/
def beginFwMarker : Line := "Begin PBXFrameworksBuildPhase section".data

/-- The `PBXFrameworksBuildPhase` end marker substring. -/
def endFwMarker : Line := "End PBXFrameworksBuildPhase section".data

/-- Python `in` on strings: substring containment. -/
def containsSub (needle hay : Line) : Bool := decide (needle <:+: hay)

/-- The inner pass-through loop for a frameworks build phase section:
copy lines up to and including the first one containing the end marker
(or all remaining lines); returns the copied block and the rest. -/
def takeFw : List Line → List Line × List Line
  | [] => ([], [])
  | l :: ls =>
    if containsSub endFwMarker l then ([l], ls)
    else
      let p := takeFw ls
      (l :: p.1, p.2)

/-- How the main loop of `sort_project_file` dispatches on the current
line, in the order of its `if`/`elif` chain. -/
inductive LineKind where
  | filesHeader (indent : Line)
  | namedHeader (indent : Line) (name : Line)
  | beginFw
  | plain
deriving DecidableEq, Repr

/-- The dispatch itself: `REGEX_FILES_ARRAY`, then `REGEX_ARRAY_START`,
then the begin-marker substring test, else a plain line. -/
def classifyLine (l : Line) : LineKind :=
  match matchFilesHeader l with
  | some ind => .filesHeader ind
  | none =>
    match matchArrayStart l with
    | some (ind, n) => .namedHeader ind n
    | none => if containsSub beginFwMarker l then .beginFw else .plain

/-- The terminator string `indent + ");"`. -/
def endMarkerOf (indent : Line) : Line := indent ++ [')', ';']

/-- `readArrayEntries` splits its input and drops at least one line. -/
theorem readArrayEntries_split {em : Line} {ls b r : List Line} {e : Line}
    (h : readArrayEntries em ls = some (b, e, r)) :
    ls = b ++ e :: r ∧ (∀ x ∈ b, isTerminatorLine em x = false) ∧
      isTerminatorLine em e = true := by
  induction ls generalizing b e r with
  | nil => simp [readArrayEntries] at h
  | cons l ls ih =>
    by_cases hT : isTerminatorLine em l
    · simp [readArrayEntries, hT] at h
      obtain ⟨hb, he, hr⟩ := h
      subst hb; subst he; subst hr
      exact ⟨rfl, by simp, hT⟩
    · simp only [readArrayEntries, hT, if_neg, Bool.false_eq_true, if_false] at h
      match hrec : readArrayEntries em ls with
      | none => rw [hrec] at h; simp at h
      | some (es, e0, r0) =>
        rw [hrec] at h
        simp only [Option.some.injEq, Prod.mk.injEq] at h
        obtain ⟨hb, he, hr⟩ := h
        obtain ⟨hsplit, hnone, hterm⟩ := ih hrec
        subst hb; subst he; subst hr
        refine ⟨by simpa using hsplit, ?_, hterm⟩
        intro x hx
        rcases List.mem_cons.1 hx with hx | hx
        · subst hx; simpa using hT
        · exact hnone x hx

/-- Length bound extracted from the split. -/
theorem readArrayEntries_length {em : Line} {ls b r : List Line} {e : Line}
    (h : readArrayEntries em ls = some (b, e, r)) : r.length < ls.length := by
  obtain ⟨hsplit, -, -⟩ := readArrayEntries_split h
  subst hsplit
  simp
  omega

/-- `takeFw` splits its input. -/
theorem takeFw_split : ∀ ls : List Line, ls = (takeFw ls).1 ++ (takeFw ls).2
  | [] => rfl
  | l :: ls => by
    by_cases h : containsSub endFwMarker l
    · simp [takeFw, h]
    · simpa [takeFw, h] using takeFw_split ls

/-- Length bound for the pass-through block tail. -/
theorem takeFw_length (ls : List Line) : (takeFw ls).2.length ≤ ls.length := by
  conv_rhs => rw [takeFw_split ls]
  simp

/-- The main loop of `sort_project_file` over the list of lines:
sortable array regions are deduplicated and stably sorted, frameworks
sections are copied verbatim, everything else passes through; `none`
models the propagated `RuntimeError` of an unterminated array and the
propagated `ValueError` of `sorted` applying the key function to a line
whose key is undefined. -/
def processLinesGo (ci : Bool) : Nat → List Line → Option (List Line)
  | _, [] => some []
  | 0, _ :: _ => none
  | fuel + 1, l :: ls =>
    match classifyLine l with
    | .filesHeader ind =>
      match readArrayEntries (endMarkerOf ind) ls with
      | none => none
      | some (body, endLine, rest) =>
        match mapOpt (files_sort_key ci) (uniq body) with
        | none => none
        | some _ =>
          (processLinesGo ci fuel rest).map fun o =>
            l :: (sortFilesBody ci body ++ endLine :: o)
    | .namedHeader ind _ =>
      match readArrayEntries (endMarkerOf ind) ls with
      | none => none
      | some (body, endLine, rest) =>
        match mapOpt (children_sort_key ci) (uniq body) with
        | none => none
        | some _ =>
          (processLinesGo ci fuel rest).map fun o =>
            l :: (sortChildrenBody ci body ++ endLine :: o)
    | .beginFw =>
      (processLinesGo ci fuel (takeFw ls).2).map fun o => l :: ((takeFw ls).1 ++ o)
    | .plain => (processLinesGo ci fuel ls).map fun o => l :: o

/-- The main loop of `sort_project_file` itself; each step consumes at
least one line, so fuel equal to the number of lines never runs out. -/
def processLines (ci : Bool) (ls : List Line) : Option (List Line) :=
  processLinesGo ci ls.length ls

/-- Python `content.split("\n")`. -/
def splitOnNl : List Char → List Line
  | [] => [[]]
  | c :: cs =>
    if c = '\n' then [] :: splitOnNl cs
    else
      match splitOnNl cs with
      | t :: rest => (c :: t) :: rest
      | [] => [[c]]

/-- Python `"\n".join(lines)`. -/
def joinNl : List Line → List Char
  | [] => []
  | [l] => l
  | l :: ls => l ++ '\n' :: joinNl ls

/-- The content-level transformation of `sort_project_file`: split into
lines, run the scanner, join back; `none` is the structural error. -/
def processContent (ci : Bool) (content : String) : Option String :=
  (processLines ci (splitOnNl content.data)).map fun os => String.mk (joinNl os)

/-- `sort_project_file` at the level of the observable file state: given
the on-disk content, return `Except.error disk` when the structural
error propagates (the write is never reached, the disk keeps its bytes),
otherwise the final disk content and the function's boolean result.  In
check mode nothing is written; otherwise the sorted content is written
only when it differs. -/
def sort_project_file (ci check : Bool) (disk : String) : Except String (String × Bool) :=
  match processContent ci disk with
  | none => .error disk
  | some sc =>
    if check then .ok (disk, disk == sc)
    else if disk == sc then .ok (disk, true)
    else .ok (sc, true)

/-- The structural-failure skeleton of the scanner: some recognized
array header is opened and no later line, up to end of input, matches
its terminator. -/
def hasUnterminatedArrayGo : Nat → List Line → Bool
  | _, [] => false
  | 0, _ :: _ => false
  | fuel + 1, l :: ls =>
    match classifyLine l with
    | .filesHeader ind =>
      match readArrayEntries (endMarkerOf ind) ls with
      | none => true
      | some (_, _, rest) => hasUnterminatedArrayGo fuel rest
    | .namedHeader ind _ =>
      match readArrayEntries (endMarkerOf ind) ls with
      | none => true
      | some (_, _, rest) => hasUnterminatedArrayGo fuel rest
    | .beginFw => hasUnterminatedArrayGo fuel (takeFw ls).2
    | .plain => hasUnterminatedArrayGo fuel ls

/-- The structural-failure skeleton itself, with the same fuel bound as
the scanner. -/
def hasUnterminatedArray (ls : List Line) : Bool :=
  hasUnterminatedArrayGo ls.length ls

end SortXcodeProj

namespace SortXcodeProj

/-! ### Lawfulness of the key comparison

Python compares the tuple-built sort keys with a total order; the
following lemmas establish that the modelled comparison is reflexive,
antisymmetric (via `Ordering.swap`) and transitive, with `.eq` exactly
on equal keys. -/

/-- A three-way comparison that is equality-reflecting, swap-antisymmetric
and transitive. -/
structure LawfulCmp (cmp : α → α → Ordering) : Prop where
  eq_iff : ∀ a b, cmp a b = .eq ↔ a = b
  swap : ∀ a b, (cmp a b).swap = cmp b a
  lt_trans : ∀ {a b c}, cmp a b = .lt → cmp b c = .lt → cmp a c = .lt

theorem natCmp_lt_iff {a b : Nat} : natCmp a b = .lt ↔ a < b := by
  unfold natCmp
  split_ifs <;> simp <;> omega

theorem natCmp_eq_iff {a b : Nat} : natCmp a b = .eq ↔ a = b := by
  unfold natCmp
  split_ifs <;> simp <;> omega

theorem natCmp_swap (a b : Nat) : (natCmp a b).swap = natCmp b a := by
  unfold natCmp
  split_ifs <;> first | rfl | (exfalso; omega)

theorem ordSwap_then (o1 o2 : Ordering) :
    (o1.then o2).swap = o1.swap.then o2.swap := by
  cases o1 <;> rfl

theorem natCmp_lawful : LawfulCmp natCmp := by
  refine ⟨fun a b => natCmp_eq_iff, natCmp_swap, ?_⟩
  intro a b c h1 h2
  rw [natCmp_lt_iff] at h1 h2 ⊢
  omega

theorem charCmp_lawful : LawfulCmp charCmp := by
  refine ⟨?_, fun a b => natCmp_swap _ _, fun h1 h2 => natCmp_lawful.lt_trans h1 h2⟩
  intro a b
  rw [charCmp, natCmp_eq_iff]
  constructor
  · intro h
    have := congrArg Char.ofNat h
    simpa using this
  · intro h; rw [h]

theorem boolCmp_lawful : LawfulCmp boolCmp := by
  refine ⟨?_, ?_, ?_⟩
  · intro a b; cases a <;> cases b <;> simp [boolCmp, natCmp]
  · intro a b; cases a <;> cases b <;> rfl
  · intro a b c h1 h2
    cases a <;> cases b <;> cases c <;> simp_all [boolCmp, natCmp]

theorem listCmp_lawful {cmp : α → α → Ordering} (hc : LawfulCmp cmp) :
    LawfulCmp (listCmp cmp) := by
  refine ⟨?_, ?_, ?_⟩
  · intro a
    induction a with
    | nil => intro b; cases b <;> simp [listCmp]
    | cons x xs ih =>
      intro b
      cases b with
      | nil => simp [listCmp]
      | cons y ys =>
        simp only [listCmp, Ordering.then_eq_eq, hc.eq_iff, ih, List.cons.injEq]
  · intro a
    induction a with
    | nil => intro b; cases b <;> rfl
    | cons x xs ih =>
      intro b
      cases b with
      | nil => rfl
      | cons y ys =>
        simp only [listCmp, ordSwap_then, hc.swap, ih]
  · intro a b c h1 h2
    induction a generalizing b c with
    | nil =>
      cases b <;> cases c <;> simp_all [listCmp]
    | cons x xs ih =>
      cases b with
      | nil => simp [listCmp] at h1
      | cons y ys =>
        cases c with
        | nil => simp [listCmp] at h2
        | cons z zs =>
          simp only [listCmp, Ordering.then_eq_lt] at h1 h2 ⊢
          rcases h1 with h1 | ⟨h1e, h1r⟩
          · rcases h2 with h2 | ⟨h2e, h2r⟩
            · exact Or.inl (hc.lt_trans h1 h2)
            · rw [hc.eq_iff] at h2e; subst h2e; exact Or.inl h1
          · rw [hc.eq_iff] at h1e; subst h1e
            rcases h2 with h2 | ⟨h2e, h2r⟩
            · exact Or.inl h2
            · rw [hc.eq_iff] at h2e; subst h2e
              exact Or.inr ⟨(hc.eq_iff _ _).mpr rfl, ih h1r h2r⟩

theorem ntokCmp_lawful : LawfulCmp ntokCmp := by
  have hl := listCmp_lawful charCmp_lawful
  refine ⟨?_, ?_, ?_⟩
  · intro a b
    cases a <;> cases b <;>
      simp [ntokCmp, Ordering.then_eq_eq, natCmp_eq_iff, hl.eq_iff]
  · intro a b
    cases a <;> cases b
    · simp only [ntokCmp, ordSwap_then, natCmp_swap]
    · rfl
    · rfl
    · simp only [ntokCmp, hl.swap]
  · intro a b c h1 h2
    cases a with
    | num v1 d1 =>
      cases c with
      | num vc dc =>
        cases b with
        | num vb db =>
          simp only [ntokCmp, Ordering.then_eq_lt] at h1 h2 ⊢
          rcases h1 with h1 | ⟨h1e, h1r⟩
          · rcases h2 with h2 | ⟨h2e, h2r⟩
            · exact Or.inl (natCmp_lawful.lt_trans h1 h2)
            · rw [natCmp_eq_iff] at h2e; subst h2e; exact Or.inl h1
          · rw [natCmp_eq_iff] at h1e; subst h1e
            rcases h2 with h2 | ⟨h2e, h2r⟩
            · exact Or.inl h2
            · rw [natCmp_eq_iff] at h2e; subst h2e
              exact Or.inr ⟨natCmp_eq_iff.mpr rfl, natCmp_lawful.lt_trans h1r h2r⟩
        | text sb => exact absurd h2 (by simp [ntokCmp])
      | text sc => rfl
    | text s1 =>
      cases b with
      | num vb db => exact absurd h1 (by simp [ntokCmp])
      | text sb =>
        cases c with
        | num vc dc => exact absurd h2 (by simp [ntokCmp])
        | text sc => exact hl.lt_trans h1 h2

theorem keyCmp_lawful : LawfulCmp keyCmp := listCmp_lawful ntokCmp_lawful

theorem childKeyCmp_lawful : LawfulCmp childKeyCmp := by
  refine ⟨?_, ?_, ?_⟩
  · intro a b
    obtain ⟨a1, a2⟩ := a
    obtain ⟨b1, b2⟩ := b
    simp [childKeyCmp, Ordering.then_eq_eq, boolCmp_lawful.eq_iff, keyCmp_lawful.eq_iff]
  · intro a b
    obtain ⟨a1, a2⟩ := a
    obtain ⟨b1, b2⟩ := b
    simp only [childKeyCmp, ordSwap_then, boolCmp_lawful.swap, keyCmp_lawful.swap]
  · intro a b c h1 h2
    simp only [childKeyCmp, Ordering.then_eq_lt] at h1 h2 ⊢
    rcases h1 with h1 | ⟨h1e, h1r⟩
    · rcases h2 with h2 | ⟨h2e, h2r⟩
      · exact Or.inl (boolCmp_lawful.lt_trans h1 h2)
      · rw [boolCmp_lawful.eq_iff] at h2e; rw [← h2e]; exact Or.inl h1
    · rw [boolCmp_lawful.eq_iff] at h1e
      rcases h2 with h2 | ⟨h2e, h2r⟩
      · rw [h1e]; exact Or.inl h2
      · rw [boolCmp_lawful.eq_iff] at h2e
        exact Or.inr ⟨(boolCmp_lawful.eq_iff _ _).mpr (h1e.trans h2e),
          keyCmp_lawful.lt_trans h1r h2r⟩

/-- Totality of the non-strict order induced by a lawful comparison. -/
theorem LawfulCmp.le_total {cmp : α → α → Ordering} (h : LawfulCmp cmp) (a b : α) :
    cmp a b ≠ .gt ∨ cmp b a ≠ .gt := by
  rcases hab : cmp a b with _ | _ | _
  · exact Or.inl (by simp)
  · exact Or.inl (by simp)
  · have : cmp b a = .lt := by rw [← h.swap, hab]; rfl
    exact Or.inr (by simp [this])

/-- Transitivity of the non-strict order induced by a lawful comparison. -/
theorem LawfulCmp.le_trans {cmp : α → α → Ordering} (h : LawfulCmp cmp) {a b c : α}
    (h1 : cmp a b ≠ .gt) (h2 : cmp b c ≠ .gt) : cmp a c ≠ .gt := by
  rcases hab : cmp a b with _ | _ | _
  · rcases hbc : cmp b c with _ | _ | _
    · simp [h.lt_trans hab hbc]
    · rw [h.eq_iff] at hbc; subst hbc; simp [hab]
    · exact absurd hbc h2
  · rw [h.eq_iff] at hab; subst hab; exact h2
  · exact absurd hab h1

/-- The `Option` extension of a lawful comparison is lawful. -/
theorem optCmp_lawful {cmp : α → α → Ordering} (hc : LawfulCmp cmp) :
    LawfulCmp (optCmp cmp) := by
  refine ⟨?_, ?_, ?_⟩
  · intro a b
    cases a with
    | none => cases b with
      | none => simp [optCmp]
      | some b' => simp [optCmp]
    | some a' => cases b with
      | none => simp [optCmp]
      | some b' => simp [optCmp, hc.eq_iff]
  · intro a b
    cases a with
    | none => cases b with
      | none => rfl
      | some b' => rfl
    | some a' => cases b with
      | none => rfl
      | some b' => exact hc.swap a' b'
  · intro a b c h1 h2
    cases a with
    | none => cases b with
      | none => exact absurd h1 (by simp [optCmp])
      | some b' => exact absurd h1 (by simp [optCmp])
    | some a' =>
      cases b with
      | none => cases c with
        | none => exact absurd h2 (by simp [optCmp])
        | some c' => exact absurd h2 (by simp [optCmp])
      | some b' => cases c with
        | none => rfl
        | some c' => exact hc.lt_trans h1 h2

instance (ci : Bool) : IsTotal Line (filesLe ci) :=
  ⟨fun a b => (optCmp_lawful keyCmp_lawful).le_total _ _⟩

instance (ci : Bool) : IsTrans Line (filesLe ci) :=
  ⟨fun _ _ _ h1 h2 => (optCmp_lawful keyCmp_lawful).le_trans h1 h2⟩

instance (ci : Bool) : IsTotal Line (childrenLe ci) :=
  ⟨fun a b => (optCmp_lawful childKeyCmp_lawful).le_total _ _⟩

instance (ci : Bool) : IsTrans Line (childrenLe ci) :=
  ⟨fun _ _ _ h1 h2 => (optCmp_lawful childKeyCmp_lawful).le_trans h1 h2⟩

end SortXcodeProj

namespace SortXcodeProj

/-! ### Stability of the modelled sort

Python's `sorted` is a stable ascending sort; the model uses
`List.insertionSort`, which is also stable.  Stability is expressed by
the invariance of each equivalence class (elements the order ranks
equally) under sorting: filtering the output by one class gives exactly
the filtered input. -/

section Stability

variable {α : Type u} (r : α → α → Prop) [DecidableRel r]

end Stability

/-! ### Deduplication -/

/-- The specification account of `dedupe`: keep the first occurrence,
drop every later duplicate, preserve the order of survivors. -/
def specDedup : List Line → List Line
  | [] => []
  | x :: xs => x :: specDedup (xs.filter (fun y => y ≠ x))
termination_by l => l.length
decreasing_by
  exact Nat.lt_succ_of_le (List.length_filter_le _ _)

theorem uniqAux_eq_specDedup :
    ∀ (l : List Line) (seen : List Line),
      uniqAux seen l = specDedup (l.filter (fun y => y ∉ seen))
  | [], seen => by simp [uniqAux, specDedup]
  | x :: xs, seen => by
    by_cases hx : x ∈ seen
    · rw [uniqAux, if_pos hx, List.filter_cons, if_neg (by simpa using hx)]
      exact uniqAux_eq_specDedup xs seen
    · rw [uniqAux, if_neg hx, List.filter_cons, if_pos (by simpa using hx),
        specDedup, uniqAux_eq_specDedup xs (x :: seen), List.filter_filter]
      have heq : (fun (y : Line) => decide (y ∉ x :: seen)) =
          (fun (y : Line) => decide (y ≠ x) && decide (y ∉ seen)) := by
        funext y
        by_cases h1 : y = x <;> by_cases h2 : y ∈ seen <;> simp [h1, h2]
      rw [heq]
termination_by l => l.length
decreasing_by
  · exact Nat.lt_succ_of_le (Nat.le_refl _)
  · exact Nat.lt_succ_of_le (Nat.le_refl _)

/-- `uniq` computes exactly the specification first-occurrence
deduplication. -/
theorem uniq_eq_specDedup (l : List Line) : uniq l = specDedup l := by
  rw [uniq, uniqAux_eq_specDedup]
  congr 1
  simp

theorem specDedup_sublist : ∀ l : List Line, List.Sublist (specDedup l) l
  | [] => by rw [specDedup]
  | x :: xs => by
    rw [specDedup]
    exact ((specDedup_sublist _).trans (List.filter_sublist xs)).cons₂ x
termination_by l => l.length
decreasing_by
  exact Nat.lt_succ_of_le (List.length_filter_le _ _)

theorem specDedup_nodup : ∀ l : List Line, (specDedup l).Nodup
  | [] => by rw [specDedup]; exact List.nodup_nil
  | x :: xs => by
    rw [specDedup]
    refine List.Nodup.cons ?_ (specDedup_nodup _)
    intro hx
    have hmem := (specDedup_sublist _).subset hx
    simp at hmem
termination_by l => l.length
decreasing_by
  exact Nat.lt_succ_of_le (List.length_filter_le _ _)

theorem mem_specDedup : ∀ (l : List Line) (x : Line), x ∈ specDedup l ↔ x ∈ l
  | [], x => by rw [specDedup]
  | y :: ys, x => by
    rw [specDedup]
    by_cases hxy : x = y
    · simp [hxy]
    · simp only [List.mem_cons, hxy, false_or]
      rw [mem_specDedup (ys.filter (fun z => z ≠ y)) x]
      simp [hxy]
termination_by l => l.length
decreasing_by
  exact Nat.lt_succ_of_le (List.length_filter_le _ _)

theorem uniq_sublist (l : List Line) : List.Sublist (uniq l) l := by
  rw [uniq_eq_specDedup]; exact specDedup_sublist l

theorem uniq_nodup (l : List Line) : (uniq l).Nodup := by
  rw [uniq_eq_specDedup]; exact specDedup_nodup l

theorem mem_uniq (l : List Line) (x : Line) : x ∈ uniq l ↔ x ∈ l := by
  rw [uniq_eq_specDedup]; exact mem_specDedup l x

/-- On a list without duplicates, `uniq` is the identity. -/
theorem uniq_of_nodup : ∀ l : List Line, l.Nodup → uniq l = l := by
  intro l h
  rw [uniq_eq_specDedup]
  induction l with
  | nil => rw [specDedup]
  | cons x xs ih =>
    rw [specDedup]
    have hx : xs.filter (fun y => y ≠ x) = xs := by
      refine List.filter_eq_self.2 fun y hy => ?_
      simp only [ne_eq, decide_eq_true_eq]
      rintro rfl
      exact (List.nodup_cons.1 h).1 hy
    rw [hx, ih (List.nodup_cons.1 h).2]

end SortXcodeProj

namespace SortXcodeProj

/-! ### Step equations of the scanner -/

theorem processLinesGo_nil (ci : Bool) (f : Nat) : processLinesGo ci f [] = some [] := by
  cases f <;> rfl

theorem hasUnterminatedArrayGo_nil (f : Nat) : hasUnterminatedArrayGo f [] = false := by
  cases f <;> rfl

theorem processLinesGo_files_some {l ind endLine : Line} {body rest : List Line}
    {ks : List (List NTok)} (ci : Bool) (f : Nat) (ls : List Line)
    (hc : classifyLine l = .filesHeader ind)
    (hr : readArrayEntries (endMarkerOf ind) ls = some (body, endLine, rest))
    (hk : mapOpt (files_sort_key ci) (uniq body) = some ks) :
    processLinesGo ci (f + 1) (l :: ls) =
      (processLinesGo ci f rest).map fun o =>
        l :: (sortFilesBody ci body ++ endLine :: o) := by
  rw [processLinesGo, hc]
  split <;> rename_i hsplit
  · injection hsplit with h1
    subst h1
    split <;> rename_i hread
    · rw [hread] at hr; cases hr
    · rw [hread] at hr; cases hr; rw [hk]
  · cases hsplit
  · cases hsplit
  · cases hsplit

theorem processLinesGo_files_raise {l ind endLine : Line} {body rest : List Line}
    (ci : Bool) (f : Nat) (ls : List Line)
    (hc : classifyLine l = .filesHeader ind)
    (hr : readArrayEntries (endMarkerOf ind) ls = some (body, endLine, rest))
    (hk : mapOpt (files_sort_key ci) (uniq body) = none) :
    processLinesGo ci (f + 1) (l :: ls) = none := by
  rw [processLinesGo, hc]
  split <;> rename_i hsplit
  · injection hsplit with h1
    subst h1
    split <;> rename_i hread
    · rfl
    · rw [hread] at hr; cases hr; rw [hk]
  · cases hsplit
  · cases hsplit
  · cases hsplit

theorem processLinesGo_files_none {l ind : Line} (ci : Bool) (f : Nat) (ls : List Line)
    (hc : classifyLine l = .filesHeader ind)
    (hr : readArrayEntries (endMarkerOf ind) ls = none) :
    processLinesGo ci (f + 1) (l :: ls) = none := by
  rw [processLinesGo, hc]
  split <;> rename_i hsplit
  · injection hsplit with h1
    subst h1
    split <;> rename_i hread
    · rfl
    · rw [hread] at hr; cases hr
  · cases hsplit
  · cases hsplit
  · cases hsplit

theorem processLinesGo_named_some {l ind name endLine : Line} {body rest : List Line}
    {ks : List (Bool × List NTok)} (ci : Bool) (f : Nat) (ls : List Line)
    (hc : classifyLine l = .namedHeader ind name)
    (hr : readArrayEntries (endMarkerOf ind) ls = some (body, endLine, rest))
    (hk : mapOpt (children_sort_key ci) (uniq body) = some ks) :
    processLinesGo ci (f + 1) (l :: ls) =
      (processLinesGo ci f rest).map fun o =>
        l :: (sortChildrenBody ci body ++ endLine :: o) := by
  rw [processLinesGo, hc]
  split <;> rename_i hsplit
  · cases hsplit
  · injection hsplit with h1 h2
    subst h1; subst h2
    split <;> rename_i hread
    · rw [hread] at hr; cases hr
    · rw [hread] at hr; cases hr; rw [hk]
  · cases hsplit
  · cases hsplit

theorem processLinesGo_named_raise {l ind name endLine : Line} {body rest : List Line}
    (ci : Bool) (f : Nat) (ls : List Line)
    (hc : classifyLine l = .namedHeader ind name)
    (hr : readArrayEntries (endMarkerOf ind) ls = some (body, endLine, rest))
    (hk : mapOpt (children_sort_key ci) (uniq body) = none) :
    processLinesGo ci (f + 1) (l :: ls) = none := by
  rw [processLinesGo, hc]
  split <;> rename_i hsplit
  · cases hsplit
  · injection hsplit with h1 h2
    subst h1; subst h2
    split <;> rename_i hread
    · rfl
    · rw [hread] at hr; cases hr; rw [hk]
  · cases hsplit
  · cases hsplit

theorem processLinesGo_named_none {l ind name : Line} (ci : Bool) (f : Nat) (ls : List Line)
    (hc : classifyLine l = .namedHeader ind name)
    (hr : readArrayEntries (endMarkerOf ind) ls = none) :
    processLinesGo ci (f + 1) (l :: ls) = none := by
  rw [processLinesGo, hc]
  split <;> rename_i hsplit
  · cases hsplit
  · injection hsplit with h1 h2
    subst h1; subst h2
    split <;> rename_i hread
    · rfl
    · rw [hread] at hr; cases hr
  · cases hsplit
  · cases hsplit

theorem processLinesGo_beginFw {l : Line} (ci : Bool) (f : Nat) (ls : List Line)
    (hc : classifyLine l = .beginFw) :
    processLinesGo ci (f + 1) (l :: ls) =
      (processLinesGo ci f (takeFw ls).2).map fun o => l :: ((takeFw ls).1 ++ o) := by
  rw [processLinesGo, hc]

theorem processLinesGo_plain {l : Line} (ci : Bool) (f : Nat) (ls : List Line)
    (hc : classifyLine l = .plain) :
    processLinesGo ci (f + 1) (l :: ls) =
      (processLinesGo ci f ls).map fun o => l :: o := by
  rw [processLinesGo, hc]

theorem hasUnterminatedArrayGo_files_some {l ind endLine : Line} {body rest : List Line}
    (f : Nat) (ls : List Line)
    (hc : classifyLine l = .filesHeader ind)
    (hr : readArrayEntries (endMarkerOf ind) ls = some (body, endLine, rest)) :
    hasUnterminatedArrayGo (f + 1) (l :: ls) = hasUnterminatedArrayGo f rest := by
  rw [hasUnterminatedArrayGo, hc]
  split <;> rename_i hsplit
  · injection hsplit with h1
    subst h1
    split <;> rename_i hread
    · rw [hread] at hr; cases hr
    · rw [hread] at hr; cases hr; rfl
  · cases hsplit
  · cases hsplit
  · cases hsplit

theorem hasUnterminatedArrayGo_files_none {l ind : Line} (f : Nat) (ls : List Line)
    (hc : classifyLine l = .filesHeader ind)
    (hr : readArrayEntries (endMarkerOf ind) ls = none) :
    hasUnterminatedArrayGo (f + 1) (l :: ls) = true := by
  rw [hasUnterminatedArrayGo, hc]
  split <;> rename_i hsplit
  · injection hsplit with h1
    subst h1
    split <;> rename_i hread
    · rfl
    · rw [hread] at hr; cases hr
  · cases hsplit
  · cases hsplit
  · cases hsplit

theorem hasUnterminatedArrayGo_named_some {l ind name endLine : Line} {body rest : List Line}
    (f : Nat) (ls : List Line)
    (hc : classifyLine l = .namedHeader ind name)
    (hr : readArrayEntries (endMarkerOf ind) ls = some (body, endLine, rest)) :
    hasUnterminatedArrayGo (f + 1) (l :: ls) = hasUnterminatedArrayGo f rest := by
  rw [hasUnterminatedArrayGo, hc]
  split <;> rename_i hsplit
  · cases hsplit
  · injection hsplit with h1 h2
    subst h1; subst h2
    split <;> rename_i hread
    · rw [hread] at hr; cases hr
    · rw [hread] at hr; cases hr; rfl
  · cases hsplit
  · cases hsplit

theorem hasUnterminatedArrayGo_named_none {l ind name : Line} (f : Nat) (ls : List Line)
    (hc : classifyLine l = .namedHeader ind name)
    (hr : readArrayEntries (endMarkerOf ind) ls = none) :
    hasUnterminatedArrayGo (f + 1) (l :: ls) = true := by
  rw [hasUnterminatedArrayGo, hc]
  split <;> rename_i hsplit
  · cases hsplit
  · injection hsplit with h1 h2
    subst h1; subst h2
    split <;> rename_i hread
    · rfl
    · rw [hread] at hr; cases hr
  · cases hsplit
  · cases hsplit

theorem hasUnterminatedArrayGo_beginFw {l : Line} (f : Nat) (ls : List Line)
    (hc : classifyLine l = .beginFw) :
    hasUnterminatedArrayGo (f + 1) (l :: ls) =
      hasUnterminatedArrayGo f (takeFw ls).2 := by
  rw [hasUnterminatedArrayGo, hc]

theorem hasUnterminatedArrayGo_plain {l : Line} (f : Nat) (ls : List Line)
    (hc : classifyLine l = .plain) :
    hasUnterminatedArrayGo (f + 1) (l :: ls) = hasUnterminatedArrayGo f ls := by
  rw [hasUnterminatedArrayGo, hc]

/-- Any fuel at least the number of lines gives the same scan result. -/
theorem processLinesGo_congr (ci : Bool) :
    ∀ (f1 f2 : Nat) (ls : List Line), ls.length ≤ f1 → ls.length ≤ f2 →
      processLinesGo ci f1 ls = processLinesGo ci f2 ls := by
  intro f1
  induction f1 with
  | zero =>
    intro f2 ls h1 h2
    have : ls = [] := List.eq_nil_of_length_eq_zero (Nat.le_zero.1 h1)
    subst this
    rw [processLinesGo_nil, processLinesGo_nil]
  | succ g1 ih =>
    intro f2 ls h1 h2
    match ls with
    | [] => rw [processLinesGo_nil, processLinesGo_nil]
    | l :: ls' =>
      match f2 with
      | 0 => exact absurd h2 (by simp)
      | g2 + 1 =>
        have h1' : ls'.length ≤ g1 := by simpa using h1
        have h2' : ls'.length ≤ g2 := by simpa using h2
        match hcl : classifyLine l with
        | .filesHeader ind =>
          match hr : readArrayEntries (endMarkerOf ind) ls' with
          | none =>
            rw [processLinesGo_files_none ci g1 ls' hcl hr,
              processLinesGo_files_none ci g2 ls' hcl hr]
          | some (body, endLine, rest) =>
            match hk : mapOpt (files_sort_key ci) (uniq body) with
            | none =>
              rw [processLinesGo_files_raise ci g1 ls' hcl hr hk,
                processLinesGo_files_raise ci g2 ls' hcl hr hk]
            | some ks =>
              rw [processLinesGo_files_some ci g1 ls' hcl hr hk,
                processLinesGo_files_some ci g2 ls' hcl hr hk,
                ih g2 rest
                  (Nat.le_of_lt (Nat.lt_of_lt_of_le (readArrayEntries_length hr) h1'))
                  (Nat.le_of_lt (Nat.lt_of_lt_of_le (readArrayEntries_length hr) h2'))]
        | .namedHeader ind name =>
          match hr : readArrayEntries (endMarkerOf ind) ls' with
          | none =>
            rw [processLinesGo_named_none ci g1 ls' hcl hr,
              processLinesGo_named_none ci g2 ls' hcl hr]
          | some (body, endLine, rest) =>
            match hk : mapOpt (children_sort_key ci) (uniq body) with
            | none =>
              rw [processLinesGo_named_raise ci g1 ls' hcl hr hk,
                processLinesGo_named_raise ci g2 ls' hcl hr hk]
            | some ks =>
              rw [processLinesGo_named_some ci g1 ls' hcl hr hk,
                processLinesGo_named_some ci g2 ls' hcl hr hk,
                ih g2 rest
                  (Nat.le_of_lt (Nat.lt_of_lt_of_le (readArrayEntries_length hr) h1'))
                  (Nat.le_of_lt (Nat.lt_of_lt_of_le (readArrayEntries_length hr) h2'))]
        | .beginFw =>
          rw [processLinesGo_beginFw ci g1 ls' hcl, processLinesGo_beginFw ci g2 ls' hcl,
            ih g2 (takeFw ls').2 (Nat.le_trans (takeFw_length ls') h1')
              (Nat.le_trans (takeFw_length ls') h2')]
        | .plain =>
          rw [processLinesGo_plain ci g1 ls' hcl, processLinesGo_plain ci g2 ls' hcl,
            ih g2 ls' h1' h2']

/-- Any sufficient fuel gives the same failure verdict. -/
theorem hasUnterminatedArrayGo_congr :
    ∀ (f1 f2 : Nat) (ls : List Line), ls.length ≤ f1 → ls.length ≤ f2 →
      hasUnterminatedArrayGo f1 ls = hasUnterminatedArrayGo f2 ls := by
  intro f1
  induction f1 with
  | zero =>
    intro f2 ls h1 h2
    have : ls = [] := List.eq_nil_of_length_eq_zero (Nat.le_zero.1 h1)
    subst this
    rw [hasUnterminatedArrayGo_nil, hasUnterminatedArrayGo_nil]
  | succ g1 ih =>
    intro f2 ls h1 h2
    match ls with
    | [] => rw [hasUnterminatedArrayGo_nil, hasUnterminatedArrayGo_nil]
    | l :: ls' =>
      match f2 with
      | 0 => exact absurd h2 (by simp)
      | g2 + 1 =>
        have h1' : ls'.length ≤ g1 := by simpa using h1
        have h2' : ls'.length ≤ g2 := by simpa using h2
        match hcl : classifyLine l with
        | .filesHeader ind =>
          match hr : readArrayEntries (endMarkerOf ind) ls' with
          | none =>
            rw [hasUnterminatedArrayGo_files_none g1 ls' hcl hr,
              hasUnterminatedArrayGo_files_none g2 ls' hcl hr]
          | some (body, endLine, rest) =>
            rw [hasUnterminatedArrayGo_files_some g1 ls' hcl hr,
              hasUnterminatedArrayGo_files_some g2 ls' hcl hr,
              ih g2 rest
                (Nat.le_of_lt (Nat.lt_of_lt_of_le (readArrayEntries_length hr) h1'))
                (Nat.le_of_lt (Nat.lt_of_lt_of_le (readArrayEntries_length hr) h2'))]
        | .namedHeader ind name =>
          match hr : readArrayEntries (endMarkerOf ind) ls' with
          | none =>
            rw [hasUnterminatedArrayGo_named_none g1 ls' hcl hr,
              hasUnterminatedArrayGo_named_none g2 ls' hcl hr]
          | some (body, endLine, rest) =>
            rw [hasUnterminatedArrayGo_named_some g1 ls' hcl hr,
              hasUnterminatedArrayGo_named_some g2 ls' hcl hr,
              ih g2 rest
                (Nat.le_of_lt (Nat.lt_of_lt_of_le (readArrayEntries_length hr) h1'))
                (Nat.le_of_lt (Nat.lt_of_lt_of_le (readArrayEntries_length hr) h2'))]
        | .beginFw =>
          rw [hasUnterminatedArrayGo_beginFw g1 ls' hcl,
            hasUnterminatedArrayGo_beginFw g2 ls' hcl,
            ih g2 (takeFw ls').2 (Nat.le_trans (takeFw_length ls') h1')
              (Nat.le_trans (takeFw_length ls') h2')]
        | .plain =>
          rw [hasUnterminatedArrayGo_plain g1 ls' hcl,
            hasUnterminatedArrayGo_plain g2 ls' hcl, ih g2 ls' h1' h2']

theorem processLines_nil (ci : Bool) : processLines ci [] = some [] := rfl

theorem processLines_files_some {l ind endLine : Line} {body rest : List Line}
    {ks : List (List NTok)} (ci : Bool) (ls : List Line)
    (hc : classifyLine l = .filesHeader ind)
    (hr : readArrayEntries (endMarkerOf ind) ls = some (body, endLine, rest))
    (hk : mapOpt (files_sort_key ci) (uniq body) = some ks) :
    processLines ci (l :: ls) =
      (processLines ci rest).map fun o => l :: (sortFilesBody ci body ++ endLine :: o) := by
  rw [processLines, List.length_cons, processLinesGo_files_some ci ls.length ls hc hr hk,
    processLines, processLinesGo_congr ci ls.length rest.length rest
      (Nat.le_of_lt (readArrayEntries_length hr)) (Nat.le_refl _)]

theorem processLines_files_raise {l ind endLine : Line} {body rest : List Line}
    (ci : Bool) (ls : List Line)
    (hc : classifyLine l = .filesHeader ind)
    (hr : readArrayEntries (endMarkerOf ind) ls = some (body, endLine, rest))
    (hk : mapOpt (files_sort_key ci) (uniq body) = none) :
    processLines ci (l :: ls) = none := by
  rw [processLines, List.length_cons, processLinesGo_files_raise ci ls.length ls hc hr hk]

theorem processLines_files_none {l ind : Line} (ci : Bool) (ls : List Line)
    (hc : classifyLine l = .filesHeader ind)
    (hr : readArrayEntries (endMarkerOf ind) ls = none) :
    processLines ci (l :: ls) = none := by
  rw [processLines, List.length_cons, processLinesGo_files_none ci ls.length ls hc hr]

theorem processLines_named_some {l ind name endLine : Line} {body rest : List Line}
    {ks : List (Bool × List NTok)} (ci : Bool) (ls : List Line)
    (hc : classifyLine l = .namedHeader ind name)
    (hr : readArrayEntries (endMarkerOf ind) ls = some (body, endLine, rest))
    (hk : mapOpt (children_sort_key ci) (uniq body) = some ks) :
    processLines ci (l :: ls) =
      (processLines ci rest).map fun o => l :: (sortChildrenBody ci body ++ endLine :: o) := by
  rw [processLines, List.length_cons, processLinesGo_named_some ci ls.length ls hc hr hk,
    processLines, processLinesGo_congr ci ls.length rest.length rest
      (Nat.le_of_lt (readArrayEntries_length hr)) (Nat.le_refl _)]

theorem processLines_named_raise {l ind name endLine : Line} {body rest : List Line}
    (ci : Bool) (ls : List Line)
    (hc : classifyLine l = .namedHeader ind name)
    (hr : readArrayEntries (endMarkerOf ind) ls = some (body, endLine, rest))
    (hk : mapOpt (children_sort_key ci) (uniq body) = none) :
    processLines ci (l :: ls) = none := by
  rw [processLines, List.length_cons, processLinesGo_named_raise ci ls.length ls hc hr hk]

theorem processLines_named_none {l ind name : Line} (ci : Bool) (ls : List Line)
    (hc : classifyLine l = .namedHeader ind name)
    (hr : readArrayEntries (endMarkerOf ind) ls = none) :
    processLines ci (l :: ls) = none := by
  rw [processLines, List.length_cons, processLinesGo_named_none ci ls.length ls hc hr]

theorem processLines_beginFw {l : Line} (ci : Bool) (ls : List Line)
    (hc : classifyLine l = .beginFw) :
    processLines ci (l :: ls) =
      (processLines ci (takeFw ls).2).map fun o => l :: ((takeFw ls).1 ++ o) := by
  rw [processLines, List.length_cons, processLinesGo_beginFw ci ls.length ls hc,
    processLines, processLinesGo_congr ci ls.length (takeFw ls).2.length (takeFw ls).2
      (takeFw_length ls) (Nat.le_refl _)]

theorem processLines_plain {l : Line} (ci : Bool) (ls : List Line)
    (hc : classifyLine l = .plain) :
    processLines ci (l :: ls) = (processLines ci ls).map fun o => l :: o := by
  rw [processLines, List.length_cons, processLinesGo_plain ci ls.length ls hc, processLines]

theorem hasUnterminatedArray_nil : hasUnterminatedArray [] = false := rfl

theorem hasUnterminatedArray_files_some {l ind endLine : Line} {body rest : List Line}
    (ls : List Line)
    (hc : classifyLine l = .filesHeader ind)
    (hr : readArrayEntries (endMarkerOf ind) ls = some (body, endLine, rest)) :
    hasUnterminatedArray (l :: ls) = hasUnterminatedArray rest := by
  rw [hasUnterminatedArray, List.length_cons,
    hasUnterminatedArrayGo_files_some ls.length ls hc hr, hasUnterminatedArray,
    hasUnterminatedArrayGo_congr ls.length rest.length rest
      (Nat.le_of_lt (readArrayEntries_length hr)) (Nat.le_refl _)]

theorem hasUnterminatedArray_files_none {l ind : Line} (ls : List Line)
    (hc : classifyLine l = .filesHeader ind)
    (hr : readArrayEntries (endMarkerOf ind) ls = none) :
    hasUnterminatedArray (l :: ls) = true := by
  rw [hasUnterminatedArray, List.length_cons,
    hasUnterminatedArrayGo_files_none ls.length ls hc hr]

theorem hasUnterminatedArray_named_some {l ind name endLine : Line} {body rest : List Line}
    (ls : List Line)
    (hc : classifyLine l = .namedHeader ind name)
    (hr : readArrayEntries (endMarkerOf ind) ls = some (body, endLine, rest)) :
    hasUnterminatedArray (l :: ls) = hasUnterminatedArray rest := by
  rw [hasUnterminatedArray, List.length_cons,
    hasUnterminatedArrayGo_named_some ls.length ls hc hr, hasUnterminatedArray,
    hasUnterminatedArrayGo_congr ls.length rest.length rest
      (Nat.le_of_lt (readArrayEntries_length hr)) (Nat.le_refl _)]

theorem hasUnterminatedArray_named_none {l ind name : Line} (ls : List Line)
    (hc : classifyLine l = .namedHeader ind name)
    (hr : readArrayEntries (endMarkerOf ind) ls = none) :
    hasUnterminatedArray (l :: ls) = true := by
  rw [hasUnterminatedArray, List.length_cons,
    hasUnterminatedArrayGo_named_none ls.length ls hc hr]

theorem hasUnterminatedArray_beginFw {l : Line} (ls : List Line)
    (hc : classifyLine l = .beginFw) :
    hasUnterminatedArray (l :: ls) = hasUnterminatedArray (takeFw ls).2 := by
  rw [hasUnterminatedArray, List.length_cons,
    hasUnterminatedArrayGo_beginFw ls.length ls hc, hasUnterminatedArray,
    hasUnterminatedArrayGo_congr ls.length (takeFw ls).2.length (takeFw ls).2
      (takeFw_length ls) (Nat.le_refl _)]

theorem hasUnterminatedArray_plain {l : Line} (ls : List Line)
    (hc : classifyLine l = .plain) :
    hasUnterminatedArray (l :: ls) = hasUnterminatedArray ls := by
  rw [hasUnterminatedArray, List.length_cons,
    hasUnterminatedArrayGo_plain ls.length ls hc, hasUnterminatedArray]

end SortXcodeProj

namespace SortXcodeProj

/-! ### Reconstruction lemmas for the scanner's second pass -/

theorem readArrayEntries_reconstruct {em : Line} :
    ∀ {b : List Line} {e : Line} {r : List Line},
      (∀ x ∈ b, isTerminatorLine em x = false) → isTerminatorLine em e = true →
      readArrayEntries em (b ++ e :: r) = some (b, e, r) := by
  intro b
  induction b with
  | nil =>
    intro e r _ he
    simp [readArrayEntries, he]
  | cons x xs ih =>
    intro e r hb he
    have hx : isTerminatorLine em x = false := hb x (by simp)
    rw [List.cons_append, readArrayEntries]
    rw [hx]
    simp only [Bool.false_eq_true, if_false]
    rw [ih (fun y hy => hb y (by simp [hy])) he]

theorem readArrayEntries_none_iff {em : Line} :
    ∀ {ls : List Line}, readArrayEntries em ls = none ↔
      ∀ x ∈ ls, isTerminatorLine em x = false := by
  intro ls
  induction ls with
  | nil => simp [readArrayEntries]
  | cons l ls ih =>
    by_cases hT : isTerminatorLine em l
    · simp [readArrayEntries, hT]
    · rw [readArrayEntries]
      simp only [hT, Bool.false_eq_true, if_false]
      constructor
      · intro h x hx
        rcases List.mem_cons.1 hx with rfl | hx
        · simpa using hT
        · refine ih.1 ?_ x hx
          match hrec : readArrayEntries em ls with
          | none => rfl
          | some (es, e0, r0) => rw [hrec] at h; simp at h
      · intro h
        have := ih.2 fun x hx => h x (by simp [hx])
        rw [this]

theorem takeFw_no_end :
    ∀ {ls : List Line}, (∀ x ∈ ls, containsSub endFwMarker x = false) →
      takeFw ls = (ls, []) := by
  intro ls
  induction ls with
  | nil => intro _; rfl
  | cons l ls ih =>
    intro h
    have hl : containsSub endFwMarker l = false := h l (by simp)
    rw [takeFw, hl]
    simp only [Bool.false_eq_true, if_false]
    rw [ih fun x hx => h x (by simp [hx])]

theorem takeFw_reconstruct :
    ∀ {b : List Line} {e : Line} {r : List Line},
      (∀ x ∈ b, containsSub endFwMarker x = false) →
      containsSub endFwMarker e = true →
      takeFw (b ++ e :: r) = (b ++ [e], r) := by
  intro b
  induction b with
  | nil =>
    intro e r _ he
    simp [takeFw, he]
  | cons x xs ih =>
    intro e r hb he
    have hx : containsSub endFwMarker x = false := hb x (by simp)
    rw [List.cons_append, takeFw, hx]
    simp only [Bool.false_eq_true, if_false]
    rw [ih (fun y hy => hb y (by simp [hy])) he]
    simp

/-- Structure of the copied pass-through block: either no end marker
exists and everything is copied, or the block ends at the first line
containing the end marker. -/
theorem takeFw_cases (ls : List Line) :
    ((takeFw ls).2 = [] ∧ ∀ x ∈ (takeFw ls).1, containsSub endFwMarker x = false) ∨
      (∃ b0 e, (takeFw ls).1 = b0 ++ [e] ∧ containsSub endFwMarker e = true ∧
        ∀ x ∈ b0, containsSub endFwMarker x = false) := by
  induction ls with
  | nil => exact Or.inl ⟨rfl, by simp [takeFw]⟩
  | cons l ls ih =>
    by_cases hl : containsSub endFwMarker l
    · refine Or.inr ⟨[], l, ?_, hl, by simp⟩
      rw [takeFw, if_pos hl]
      simp
    · rw [takeFw]
      simp only [hl, Bool.false_eq_true, if_false]
      rcases ih with ⟨h2, h1⟩ | ⟨b0, e, hb, he, hno⟩
      · refine Or.inl ⟨h2, ?_⟩
        intro x hx
        rcases List.mem_cons.1 hx with rfl | hx
        · simpa using hl
        · exact h1 x hx
      · refine Or.inr ⟨l :: b0, e, by simp [hb], he, ?_⟩
        intro x hx
        rcases List.mem_cons.1 hx with rfl | hx
        · simpa using hl
        · exact hno x hx

/-! ### Properties of the sorted array bodies -/

theorem sortFilesBody_perm (ci : Bool) (b : List Line) :
    (sortFilesBody ci b).Perm (uniq b) :=
  List.perm_insertionSort _ _

theorem mem_sortFilesBody {ci : Bool} {b : List Line} {x : Line} :
    x ∈ sortFilesBody ci b ↔ x ∈ b := by
  rw [(sortFilesBody_perm ci b).mem_iff, mem_uniq]

theorem sortFilesBody_nodup (ci : Bool) (b : List Line) :
    (sortFilesBody ci b).Nodup :=
  (sortFilesBody_perm ci b).nodup_iff.2 (uniq_nodup b)

theorem sorted_sortFilesBody (ci : Bool) (b : List Line) :
    List.Sorted (filesLe ci) (sortFilesBody ci b) :=
  List.sorted_insertionSort _ _

theorem sortFilesBody_idem (ci : Bool) (b : List Line) :
    sortFilesBody ci (sortFilesBody ci b) = sortFilesBody ci b := by
  rw [sortFilesBody, uniq_of_nodup _ (sortFilesBody_nodup ci b)]
  exact (sorted_sortFilesBody ci b).insertionSort_eq

theorem sortChildrenBody_perm (ci : Bool) (b : List Line) :
    (sortChildrenBody ci b).Perm (uniq b) :=
  List.perm_insertionSort _ _

theorem mem_sortChildrenBody {ci : Bool} {b : List Line} {x : Line} :
    x ∈ sortChildrenBody ci b ↔ x ∈ b := by
  rw [(sortChildrenBody_perm ci b).mem_iff, mem_uniq]

theorem sortChildrenBody_nodup (ci : Bool) (b : List Line) :
    (sortChildrenBody ci b).Nodup :=
  (sortChildrenBody_perm ci b).nodup_iff.2 (uniq_nodup b)

theorem sorted_sortChildrenBody (ci : Bool) (b : List Line) :
    List.Sorted (childrenLe ci) (sortChildrenBody ci b) :=
  List.sorted_insertionSort _ _

theorem sortChildrenBody_idem (ci : Bool) (b : List Line) :
    sortChildrenBody ci (sortChildrenBody ci b) = sortChildrenBody ci b := by
  rw [sortChildrenBody, uniq_of_nodup _ (sortChildrenBody_nodup ci b)]
  exact (sorted_sortChildrenBody ci b).insertionSort_eq

end SortXcodeProj

namespace SortXcodeProj

/-! ### Definedness of `mapOpt` -/

/-- `mapOpt` succeeds when the element function succeeds on every
element. -/
theorem mapOpt_isSome {f : α → Option β} :
    ∀ l : List α, (∀ x ∈ l, (f x).isSome = true) → (mapOpt f l).isSome = true := by
  intro l
  induction l with
  | nil => intro _; rfl
  | cons a as ih =>
    intro h
    rw [mapOpt]
    have ha := h a (by simp)
    cases hfa : f a with
    | none => rw [hfa] at ha; cases ha
    | some b =>
      have has := ih (fun x hx => h x (by simp [hx]))
      cases hms : mapOpt f as with
      | none => rw [hms] at has; cases has
      | some bs => rfl

/-- Conversely, a successful `mapOpt` had every element succeed. -/
theorem forall_isSome_of_mapOpt {f : α → Option β} :
    ∀ {l : List α}, (mapOpt f l).isSome = true → ∀ x ∈ l, (f x).isSome = true := by
  intro l
  induction l with
  | nil => intro _ x hx; cases hx
  | cons a as ih =>
    intro h x hx
    rw [mapOpt] at h
    cases hfa : f a with
    | none => rw [hfa] at h; cases h
    | some b =>
      rw [hfa] at h
      rcases List.mem_cons.1 hx with hxa | hxs
      · subst hxa; rw [hfa]; rfl
      · cases hms : mapOpt f as with
        | none => rw [hms] at h; cases h
        | some bs => exact ih (by rw [hms]; rfl) x hxs

/-- A successful `mapOpt` of a nonempty list is nonempty. -/
theorem mapOpt_cons_ne_nil {f : α → Option β} {a : α} {as : List α} {bs : List β}
    (h : mapOpt f (a :: as) = some bs) : bs ≠ [] := by
  rw [mapOpt] at h
  cases hfa : f a with
  | none => rw [hfa] at h; cases h
  | some b =>
    rw [hfa] at h
    cases hms : mapOpt f as with
    | none => rw [hms] at h; cases h
    | some cs =>
      rw [hms] at h
      simp only [Option.map_some'] at h
      injection h with h'
      rw [← h']
      simp

/-- Line-level idempotence: a successful scan of its own output is the
identity. -/
theorem processLines_idem (ci : Bool) :
    ∀ (n : Nat) (ls os : List Line), ls.length ≤ n →
      processLines ci ls = some os → processLines ci os = some os := by
  intro n
  induction n with
  | zero =>
    intro ls os hlen h
    have : ls = [] := List.eq_nil_of_length_eq_zero (Nat.le_zero.1 hlen)
    subst this
    rw [processLines_nil] at h
    cases h
    exact processLines_nil ci
  | succ n ih =>
    intro ls os hlen h
    match ls with
    | [] =>
      rw [processLines_nil] at h
      cases h
      exact processLines_nil ci
    | l :: ls' =>
      have hlen' : ls'.length ≤ n := by
        simpa using Nat.succ_le_succ_iff.1 (by simpa using hlen)
      match hcl : classifyLine l with
      | .filesHeader ind =>
        match hr : readArrayEntries (endMarkerOf ind) ls' with
        | none =>
          rw [processLines_files_none ci ls' hcl hr] at h
          cases h
        | some (body, endLine, rest) =>
          match hk : mapOpt (files_sort_key ci) (uniq body) with
          | none =>
            rw [processLines_files_raise ci ls' hcl hr hk] at h
            cases h
          | some ks =>
            rw [processLines_files_some ci ls' hcl hr hk] at h
            obtain ⟨o, ho, hos⟩ := Option.map_eq_some'.1 h
            subst hos
            obtain ⟨-, hbody, hterm⟩ := readArrayEntries_split hr
            have hSno : ∀ x ∈ sortFilesBody ci body,
                isTerminatorLine (endMarkerOf ind) x = false :=
              fun x hx => hbody x (mem_sortFilesBody.1 hx)
            have hrecon := @readArrayEntries_reconstruct (endMarkerOf ind) _ _ o hSno hterm
            have hk2 : (mapOpt (files_sort_key ci)
                (uniq (sortFilesBody ci body))).isSome = true := by
              rw [uniq_of_nodup _ (sortFilesBody_nodup ci body)]
              refine mapOpt_isSome _ fun x hx => ?_
              exact forall_isSome_of_mapOpt (by rw [hk]; rfl) x
                ((mem_uniq body x).2 (mem_sortFilesBody.1 hx))
            obtain ⟨ks2, hk2'⟩ := Option.isSome_iff_exists.1 hk2
            rw [processLines_files_some ci _ hcl hrecon hk2', sortFilesBody_idem]
            have hrest : rest.length ≤ n :=
              Nat.le_of_lt (Nat.lt_of_lt_of_le (readArrayEntries_length hr) hlen')
            rw [ih rest o hrest ho]
            rfl
      | .namedHeader ind name =>
        match hr : readArrayEntries (endMarkerOf ind) ls' with
        | none =>
          rw [processLines_named_none ci ls' hcl hr] at h
          cases h
        | some (body, endLine, rest) =>
          match hk : mapOpt (children_sort_key ci) (uniq body) with
          | none =>
            rw [processLines_named_raise ci ls' hcl hr hk] at h
            cases h
          | some ks =>
            rw [processLines_named_some ci ls' hcl hr hk] at h
            obtain ⟨o, ho, hos⟩ := Option.map_eq_some'.1 h
            subst hos
            obtain ⟨-, hbody, hterm⟩ := readArrayEntries_split hr
            have hSno : ∀ x ∈ sortChildrenBody ci body,
                isTerminatorLine (endMarkerOf ind) x = false :=
              fun x hx => hbody x (mem_sortChildrenBody.1 hx)
            have hrecon := @readArrayEntries_reconstruct (endMarkerOf ind) _ _ o hSno hterm
            have hk2 : (mapOpt (children_sort_key ci)
                (uniq (sortChildrenBody ci body))).isSome = true := by
              rw [uniq_of_nodup _ (sortChildrenBody_nodup ci body)]
              refine mapOpt_isSome _ fun x hx => ?_
              exact forall_isSome_of_mapOpt (by rw [hk]; rfl) x
                ((mem_uniq body x).2 (mem_sortChildrenBody.1 hx))
            obtain ⟨ks2, hk2'⟩ := Option.isSome_iff_exists.1 hk2
            rw [processLines_named_some ci _ hcl hrecon hk2', sortChildrenBody_idem]
            have hrest : rest.length ≤ n :=
              Nat.le_of_lt (Nat.lt_of_lt_of_le (readArrayEntries_length hr) hlen')
            rw [ih rest o hrest ho]
            rfl
      | .beginFw =>
        rw [processLines_beginFw ci ls' hcl] at h
        obtain ⟨o, ho, hos⟩ := Option.map_eq_some'.1 h
        subst hos
        have htail : (takeFw ls').2.length ≤ n :=
          Nat.le_trans (takeFw_length ls') hlen'
        have hido : processLines ci o = some o := ih _ o htail ho
        have htake : takeFw ((takeFw ls').1 ++ o) = ((takeFw ls').1, o) := by
          rcases takeFw_cases ls' with ⟨h2, h1⟩ | ⟨b0, e, hb, he, hno⟩
          · rw [h2] at ho
            rw [processLines_nil] at ho
            cases ho
            rw [List.append_nil]
            exact takeFw_no_end h1
          · rw [hb, List.append_assoc, List.singleton_append]
            exact takeFw_reconstruct hno he
        rw [processLines_beginFw ci _ hcl, htake]
        rw [hido]
        rfl
      | .plain =>
        rw [processLines_plain ci ls' hcl] at h
        obtain ⟨o, ho, hos⟩ := Option.map_eq_some'.1 h
        subst hos
        rw [processLines_plain ci o hcl, ih ls' o hlen' ho]
        rfl

end SortXcodeProj

namespace SortXcodeProj

/-- The unterminated-array condition forces failure of the scan (the
converse no longer holds: an undefined sort key also fails it). -/
theorem processLines_none_of_unterminated (ci : Bool) :
    ∀ (n : Nat) (ls : List Line), ls.length ≤ n →
      hasUnterminatedArray ls = true → processLines ci ls = none := by
  intro n
  induction n with
  | zero =>
    intro ls hlen hu
    have : ls = [] := List.eq_nil_of_length_eq_zero (Nat.le_zero.1 hlen)
    subst this
    rw [hasUnterminatedArray_nil] at hu
    cases hu
  | succ n ih =>
    intro ls hlen hu
    match ls with
    | [] => rw [hasUnterminatedArray_nil] at hu; cases hu
    | l :: ls' =>
      have hlen' : ls'.length ≤ n := by
        simpa using Nat.succ_le_succ_iff.1 (by simpa using hlen)
      match hcl : classifyLine l with
      | .filesHeader ind =>
        match hr : readArrayEntries (endMarkerOf ind) ls' with
        | none => exact processLines_files_none ci ls' hcl hr
        | some (body, endLine, rest) =>
          rw [hasUnterminatedArray_files_some ls' hcl hr] at hu
          have hrest : rest.length ≤ n :=
            Nat.le_of_lt (Nat.lt_of_lt_of_le (readArrayEntries_length hr) hlen')
          have hnone := ih rest hrest hu
          match hk : mapOpt (files_sort_key ci) (uniq body) with
          | none => exact processLines_files_raise ci ls' hcl hr hk
          | some ks =>
            rw [processLines_files_some ci ls' hcl hr hk, hnone]
            rfl
      | .namedHeader ind name =>
        match hr : readArrayEntries (endMarkerOf ind) ls' with
        | none => exact processLines_named_none ci ls' hcl hr
        | some (body, endLine, rest) =>
          rw [hasUnterminatedArray_named_some ls' hcl hr] at hu
          have hrest : rest.length ≤ n :=
            Nat.le_of_lt (Nat.lt_of_lt_of_le (readArrayEntries_length hr) hlen')
          have hnone := ih rest hrest hu
          match hk : mapOpt (children_sort_key ci) (uniq body) with
          | none => exact processLines_named_raise ci ls' hcl hr hk
          | some ks =>
            rw [processLines_named_some ci ls' hcl hr hk, hnone]
            rfl
      | .beginFw =>
        rw [hasUnterminatedArray_beginFw ls' hcl] at hu
        rw [processLines_beginFw ci ls' hcl,
          ih _ (Nat.le_trans (takeFw_length ls') hlen') hu]
        rfl
      | .plain =>
        rw [hasUnterminatedArray_plain ls' hcl] at hu
        rw [processLines_plain ci ls' hcl, ih ls' hlen' hu]
        rfl

/-- Every output line of a successful scan is one of the input lines. -/
theorem processLines_mem (ci : Bool) :
    ∀ (n : Nat) (ls os : List Line), ls.length ≤ n →
      processLines ci ls = some os → ∀ x ∈ os, x ∈ ls := by
  intro n
  induction n with
  | zero =>
    intro ls os hlen h
    have : ls = [] := List.eq_nil_of_length_eq_zero (Nat.le_zero.1 hlen)
    subst this
    rw [processLines_nil] at h
    cases h
    simp
  | succ n ih =>
    intro ls os hlen h
    match ls with
    | [] =>
      rw [processLines_nil] at h
      cases h
      simp
    | l :: ls' =>
      have hlen' : ls'.length ≤ n := by
        simpa using Nat.succ_le_succ_iff.1 (by simpa using hlen)
      match hcl : classifyLine l with
      | .filesHeader ind =>
        match hr : readArrayEntries (endMarkerOf ind) ls' with
        | none => rw [processLines_files_none ci ls' hcl hr] at h; cases h
        | some (body, endLine, rest) =>
          match hk : mapOpt (files_sort_key ci) (uniq body) with
          | none => rw [processLines_files_raise ci ls' hcl hr hk] at h; cases h
          | some ks =>
          rw [processLines_files_some ci ls' hcl hr hk] at h
          obtain ⟨o, ho, hos⟩ := Option.map_eq_some'.1 h
          subst hos
          obtain ⟨hsplit, -, -⟩ := readArrayEntries_split hr
          intro x hx
          rcases List.mem_cons.1 hx with rfl | hx
          · simp
          · rcases List.mem_append.1 hx with hx | hx
            · have : x ∈ body := mem_sortFilesBody.1 hx
              simp [hsplit, this]
            · rcases List.mem_cons.1 hx with rfl | hx
              · simp [hsplit]
              · have hrest : rest.length ≤ n :=
                  Nat.le_of_lt (Nat.lt_of_lt_of_le (readArrayEntries_length hr) hlen')
                have : x ∈ rest := ih rest o hrest ho x hx
                simp [hsplit, this]
      | .namedHeader ind name =>
        match hr : readArrayEntries (endMarkerOf ind) ls' with
        | none => rw [processLines_named_none ci ls' hcl hr] at h; cases h
        | some (body, endLine, rest) =>
          match hk : mapOpt (children_sort_key ci) (uniq body) with
          | none => rw [processLines_named_raise ci ls' hcl hr hk] at h; cases h
          | some ks =>
          rw [processLines_named_some ci ls' hcl hr hk] at h
          obtain ⟨o, ho, hos⟩ := Option.map_eq_some'.1 h
          subst hos
          obtain ⟨hsplit, -, -⟩ := readArrayEntries_split hr
          intro x hx
          rcases List.mem_cons.1 hx with rfl | hx
          · simp
          · rcases List.mem_append.1 hx with hx | hx
            · have : x ∈ body := mem_sortChildrenBody.1 hx
              simp [hsplit, this]
            · rcases List.mem_cons.1 hx with rfl | hx
              · simp [hsplit]
              · have hrest : rest.length ≤ n :=
                  Nat.le_of_lt (Nat.lt_of_lt_of_le (readArrayEntries_length hr) hlen')
                have : x ∈ rest := ih rest o hrest ho x hx
                simp [hsplit, this]
      | .beginFw =>
        rw [processLines_beginFw ci ls' hcl] at h
        obtain ⟨o, ho, hos⟩ := Option.map_eq_some'.1 h
        subst hos
        intro x hx
        rcases List.mem_cons.1 hx with rfl | hx
        · simp
        · rcases List.mem_append.1 hx with hx | hx
          · have : x ∈ ls' := by
              rw [takeFw_split ls']
              exact List.mem_append.2 (Or.inl hx)
            simp [this]
          · have : x ∈ (takeFw ls').2 :=
              ih _ o (Nat.le_trans (takeFw_length ls') hlen') ho x hx
            have : x ∈ ls' := by
              rw [takeFw_split ls']
              exact List.mem_append.2 (Or.inr this)
            simp [this]
      | .plain =>
        rw [processLines_plain ci ls' hcl] at h
        obtain ⟨o, ho, hos⟩ := Option.map_eq_some'.1 h
        subst hos
        intro x hx
        rcases List.mem_cons.1 hx with rfl | hx
        · simp
        · simp [ih ls' o hlen' ho x hx]

/-- A successful scan of a nonempty input is nonempty. -/
theorem processLines_ne_nil {ci : Bool} {l : Line} {ls os : List Line}
    (h : processLines ci (l :: ls) = some os) : os ≠ [] := by
  match hcl : classifyLine l with
  | .filesHeader ind =>
    match hr : readArrayEntries (endMarkerOf ind) ls with
    | none => rw [processLines_files_none ci ls hcl hr] at h; cases h
    | some (body, endLine, rest) =>
      match hk : mapOpt (files_sort_key ci) (uniq body) with
      | none => rw [processLines_files_raise ci ls hcl hr hk] at h; cases h
      | some ks =>
        rw [processLines_files_some ci ls hcl hr hk] at h
        obtain ⟨o, -, hos⟩ := Option.map_eq_some'.1 h
        subst hos
        simp
  | .namedHeader ind name =>
    match hr : readArrayEntries (endMarkerOf ind) ls with
    | none => rw [processLines_named_none ci ls hcl hr] at h; cases h
    | some (body, endLine, rest) =>
      match hk : mapOpt (children_sort_key ci) (uniq body) with
      | none => rw [processLines_named_raise ci ls hcl hr hk] at h; cases h
      | some ks =>
        rw [processLines_named_some ci ls hcl hr hk] at h
        obtain ⟨o, -, hos⟩ := Option.map_eq_some'.1 h
        subst hos
        simp
  | .beginFw =>
    rw [processLines_beginFw ci ls hcl] at h
    obtain ⟨o, -, hos⟩ := Option.map_eq_some'.1 h
    subst hos
    simp
  | .plain =>
    rw [processLines_plain ci ls hcl] at h
    obtain ⟨o, -, hos⟩ := Option.map_eq_some'.1 h
    subst hos
    simp

end SortXcodeProj

namespace SortXcodeProj

/-! ### Splitting and joining lines -/

theorem splitOnNl_ne_nil : ∀ cs : List Char, splitOnNl cs ≠ []
  | [] => by simp [splitOnNl]
  | c :: cs => by
    rw [splitOnNl]
    by_cases h : c = '\n'
    · simp [h]
    · simp only [h, if_false]
      match hrec : splitOnNl cs with
      | t :: rest => simp
      | [] => simp

theorem not_nl_mem_splitOnNl : ∀ (cs : List Char), ∀ l ∈ splitOnNl cs, '\n' ∉ l
  | [] => by simp [splitOnNl]
  | c :: cs => by
    intro l hl
    rw [splitOnNl] at hl
    by_cases h : c = '\n'
    · rw [if_pos h] at hl
      rcases List.mem_cons.1 hl with rfl | hl
      · simp
      · exact not_nl_mem_splitOnNl cs l hl
    · rw [if_neg h] at hl
      match hrec : splitOnNl cs with
      | t :: rest =>
        rw [hrec] at hl
        rcases List.mem_cons.1 hl with rfl | hl
        · intro hmem
          rcases List.mem_cons.1 hmem with heq | hmem
          · exact h heq.symm
          · exact not_nl_mem_splitOnNl cs t (by rw [hrec]; simp) hmem
        · exact not_nl_mem_splitOnNl cs l (by rw [hrec]; simp [hl])
      | [] => exact absurd hrec (splitOnNl_ne_nil cs)

theorem splitOnNl_of_no_nl : ∀ l : Line, '\n' ∉ l → splitOnNl l = [l]
  | [] => by simp [splitOnNl]
  | c :: cs => by
    intro h
    rw [splitOnNl, if_neg (by rintro rfl; exact h (by simp)),
      splitOnNl_of_no_nl cs (fun hm => h (by simp [hm]))]

theorem splitOnNl_append_nl (l : Line) (cs : List Char) (h : '\n' ∉ l) :
    splitOnNl (l ++ '\n' :: cs) = l :: splitOnNl cs := by
  induction l with
  | nil => simp [splitOnNl]
  | cons c l ih =>
    have hc : ¬(c = '\n') := by rintro rfl; exact h (by simp)
    rw [List.cons_append, splitOnNl, if_neg hc,
      ih (fun hm => h (by simp [hm]))]

theorem splitOnNl_joinNl : ∀ L : List Line, L ≠ [] → (∀ l ∈ L, '\n' ∉ l) →
    splitOnNl (joinNl L) = L
  | [], h, _ => absurd rfl h
  | [l], _, hno => by
    rw [joinNl, splitOnNl_of_no_nl l (hno l (by simp))]
  | l :: l2 :: L, _, hno => by
    rw [joinNl, splitOnNl_append_nl l _ (hno l (by simp)),
      splitOnNl_joinNl (l2 :: L) (List.cons_ne_nil _ _)
        (fun x hx => hno x (by simp [List.mem_cons.1 hx]))]
    exact fun hEq => List.noConfusion hEq

/-- Content-level idempotence, lifted from the line level. -/
theorem processContent_idem {ci : Bool} {content out : String}
    (h : processContent ci content = some out) :
    processContent ci out = some out := by
  rw [processContent] at h
  obtain ⟨os, hos, hout⟩ := Option.map_eq_some'.1 h
  subst hout
  rw [processContent]
  have hdata : (String.mk (joinNl os)).data = joinNl os := rfl
  rw [hdata]
  have hmem : ∀ x ∈ os, x ∈ splitOnNl content.data :=
    processLines_mem ci (splitOnNl content.data).length _ os (Nat.le_refl _) hos
  have hnonl : ∀ l ∈ os, '\n' ∉ l :=
    fun l hl => not_nl_mem_splitOnNl content.data l (hmem l hl)
  have hne : os ≠ [] := by
    match hsp : splitOnNl content.data with
    | [] => exact absurd hsp (splitOnNl_ne_nil content.data)
    | c :: cs =>
      rw [hsp] at hos
      exact processLines_ne_nil hos
  rw [splitOnNl_joinNl os hne hnonl]
  have hpos : processLines ci os = some os :=
    processLines_idem ci (splitOnNl content.data).length _ os (Nat.le_refl _) hos
  rw [hpos]
  rfl

end SortXcodeProj

namespace SortXcodeProj

/-! ### Unfolding the tokenizer -/

theorem tokenizeGo_nil (f : Nat) : tokenizeGo f [] = [] := by
  cases f <;> rfl

theorem tokenizeGo_congr :
    ∀ (f1 f2 : Nat) (cs : Line), cs.length ≤ f1 → cs.length ≤ f2 →
      tokenizeGo f1 cs = tokenizeGo f2 cs := by
  intro f1
  induction f1 with
  | zero =>
    intro f2 cs h1 h2
    have : cs = [] := List.eq_nil_of_length_eq_zero (Nat.le_zero.1 h1)
    subst this
    rw [tokenizeGo_nil, tokenizeGo_nil]
  | succ g1 ih =>
    intro f2 cs h1 h2
    match cs with
    | [] => rw [tokenizeGo_nil, tokenizeGo_nil]
    | c :: cs' =>
      match f2 with
      | 0 => exact absurd h2 (by simp)
      | g2 + 1 =>
        rw [tokenizeGo, tokenizeGo,
          ih g2 (cs'.dropWhile (runClass c))
            (Nat.le_trans ((List.dropWhile_sublist _).length_le) (by simpa using h1))
            (Nat.le_trans ((List.dropWhile_sublist _).length_le) (by simpa using h2))]

/-- One regex match of `_TOKENIZE`: the head character plus the longest
run of its class, then the rest. -/
theorem tokenize_cons (c : Char) (cs : Line) :
    tokenize (c :: cs) =
      (c :: cs.takeWhile (runClass c)) :: tokenize (cs.dropWhile (runClass c)) := by
  rw [tokenize, List.length_cons, tokenizeGo, tokenize,
    tokenizeGo_congr (cs.length) ((cs.dropWhile (runClass c)).length) _
      ((List.dropWhile_sublist _).length_le) (Nat.le_refl _)]

end SortXcodeProj

namespace SortXcodeProj

/-! ### Array-header lines and the frameworks begin marker are disjoint

A line matching one of the header regexes consists only of whitespace,
the fixed array name, `=` and `(`; none of those characters is the
capital `B` that every occurrence of the begin marker contains. -/

theorem headerTail_chars {t : Line} (h : headerTail t = true) :
    ∀ x ∈ t, isPySpace x = true ∨ x = '=' ∨ x = '(' := by
  rw [headerTail] at h
  split at h <;> rename_i hd1
  case _ r1 =>
    split at h <;> rename_i hd2
    case _ r2 =>
      have hr2 : ∀ x ∈ r2, isPySpace x = true := by
        have hnil : dropWs r2 = [] := by simpa using h
        exact List.dropWhile_eq_nil_iff.1 hnil
      intro x hx
      rw [← List.takeWhile_append_dropWhile isPySpace t] at hx
      rcases List.mem_append.1 hx with hx | hx
      · exact Or.inl (List.mem_takeWhile_imp hx)
      · rw [show t.dropWhile isPySpace = dropWs t from rfl, hd1] at hx
        rcases List.mem_cons.1 hx with rfl | hx
        · exact Or.inr (Or.inl rfl)
        · rw [← List.takeWhile_append_dropWhile isPySpace r1] at hx
          rcases List.mem_append.1 hx with hx | hx
          · exact Or.inl (List.mem_takeWhile_imp hx)
          · rw [show r1.dropWhile isPySpace = dropWs r1 from rfl, hd2] at hx
            rcases List.mem_cons.1 hx with rfl | hx
            · exact Or.inr (Or.inr rfl)
            · exact Or.inl (hr2 x hx)
    case _ => cases h
  case _ => cases h

end SortXcodeProj

namespace SortXcodeProj

theorem chars_of_matchFilesHeader {l ind : Line} (h : matchFilesHeader l = some ind) :
    ∀ x ∈ l, isPySpace x = true ∨ x ∈ "files".data ∨ x = '=' ∨ x = '(' := by
  rw [matchFilesHeader] at h
  split at h <;> rename_i hcond
  · rw [Bool.and_eq_true] at hcond
    obtain ⟨hpre, htail⟩ := hcond
    have hpre' : "files".data <+: dropWs l := by simpa using hpre
    obtain ⟨t, ht⟩ := hpre'
    intro x hx
    rw [← List.takeWhile_append_dropWhile isPySpace l] at hx
    rcases List.mem_append.1 hx with hx | hx
    · exact Or.inl (List.mem_takeWhile_imp hx)
    · rw [show l.dropWhile isPySpace = dropWs l from rfl, ← ht] at hx
      rcases List.mem_append.1 hx with hx | hx
      · exact Or.inr (Or.inl hx)
      · have hdrop : (dropWs l).drop 5 = t := by rw [← ht]; rfl
        have := headerTail_chars (by rw [hdrop] at htail; exact htail) x hx
        rcases this with h1 | h1 | h1
        · exact Or.inl h1
        · exact Or.inr (Or.inr (Or.inl h1))
        · exact Or.inr (Or.inr (Or.inr h1))
  · cases h

theorem chars_of_matchArrayStart {l : Line} {p : Line × Line}
    (h : matchArrayStart l = some p) :
    ∃ n ∈ arrayNames, ∀ x ∈ l, isPySpace x = true ∨ x ∈ n ∨ x = '=' ∨ x = '(' := by
  rw [matchArrayStart] at h
  obtain ⟨n, hfind, -⟩ := Option.map_eq_some'.1 h
  refine ⟨n, List.mem_of_find?_eq_some hfind, ?_⟩
  have hpred := List.find?_some hfind
  rw [Bool.and_eq_true] at hpred
  obtain ⟨hpre, htail⟩ := hpred
  have hpre' : n <+: dropWs l := by simpa using hpre
  obtain ⟨t, ht⟩ := hpre'
  intro x hx
  rw [← List.takeWhile_append_dropWhile isPySpace l] at hx
  rcases List.mem_append.1 hx with hx | hx
  · exact Or.inl (List.mem_takeWhile_imp hx)
  · rw [show l.dropWhile isPySpace = dropWs l from rfl, ← ht] at hx
    rcases List.mem_append.1 hx with hx | hx
    · exact Or.inr (Or.inl hx)
    · have hdrop : (dropWs l).drop n.length = t := by
        rw [← ht, List.drop_left]
      have := headerTail_chars (by rw [hdrop] at htail; exact htail) x hx
      rcases this with h1 | h1 | h1
      · exact Or.inl h1
      · exact Or.inr (Or.inr (Or.inl h1))
      · exact Or.inr (Or.inr (Or.inr h1))

/-- A line recognized as any array header cannot contain the frameworks
begin marker, so the scanner's dispatch on a marker line is always the
verbatim branch. -/
theorem classifyLine_beginFw_of_contains {l : Line}
    (h : containsSub beginFwMarker l = true) : classifyLine l = .beginFw := by
  have hB : ('B' : Char) ∈ l := by
    have hinf : beginFwMarker <:+: l := by simpa [containsSub] using h
    exact hinf.subset (by decide)
  rw [classifyLine]
  match hf : matchFilesHeader l with
  | some ind =>
    rcases chars_of_matchFilesHeader hf 'B' hB with h1 | h1 | h1 | h1 <;>
      exact absurd h1 (by decide)
  | none =>
    match ha : matchArrayStart l with
    | some p =>
      obtain ⟨n, hn, hchars⟩ := chars_of_matchArrayStart ha
      rcases hchars 'B' hB with h1 | h1 | h1 | h1
      · exact absurd h1 (by decide)
      · have hno : ∀ m ∈ arrayNames, ('B' : Char) ∉ m := by decide
        exact absurd h1 (hno n hn)
      · exact absurd h1 (by decide)
      · exact absurd h1 (by decide)
    | none => rw [h]; rfl

end SortXcodeProj

namespace SortXcodeProj

instance {ε α : Type u} [DecidableEq ε] [DecidableEq α] : DecidableEq (Except ε α)
  | .error a, .error b =>
    if h : a = b then isTrue (by rw [h])
    else isFalse (fun hc => by injection hc with h1; exact h h1)
  | .error _, .ok _ => isFalse (fun hc => by cases hc)
  | .ok _, .error _ => isFalse (fun hc => by cases hc)
  | .ok a, .ok b =>
    if h : a = b then isTrue (by rw [h])
    else isFalse (fun hc => by injection hc with h1; exact h h1)

/-! ### The claims -/

/-- C1: Idempotence of the content transformation: for every input
content and every configuration, when a first pass succeeds, processing
the output of the first pass succeeds and yields the same content, i.e.
`process(process(x).newContent).newContent == process(x).newContent`. -/
theorem claim1_content_transformation_idempotent (ci : Bool) (x out : String)
    (h : processContent ci x = some out) :
    processContent ci out = some out :=
  processContent_idem h

theorem claim1_content_transformation_idempotent_witness :
    processContent false
        "children = (\n\tBBBBBBBBBBBBBBBBBBBBBBBB /* b.m */,\n\tAAAAAAAAAAAAAAAAAAAAAAAA /* a.m */,\n);" =
      some "children = (\n\tAAAAAAAAAAAAAAAAAAAAAAAA /* a.m */,\n\tBBBBBBBBBBBBBBBBBBBBBBBB /* b.m */,\n);" ∧
    processContent false
        "children = (\n\tAAAAAAAAAAAAAAAAAAAAAAAA /* a.m */,\n\tBBBBBBBBBBBBBBBBBBBBBBBB /* b.m */,\n);" =
      some "children = (\n\tAAAAAAAAAAAAAAAAAAAAAAAA /* a.m */,\n\tBBBBBBBBBBBBBBBBBBBBBBBB /* b.m */,\n);" :=
  ⟨by decide, claim1_content_transformation_idempotent false
    "children = (\n\tBBBBBBBBBBBBBBBBBBBBBBBB /* b.m */,\n\tAAAAAAAAAAAAAAAAAAAAAAAA /* a.m */,\n);"
    "children = (\n\tAAAAAAAAAAAAAAAAAAAAAAAA /* a.m */,\n\tBBBBBBBBBBBBBBBBBBBBBBBB /* b.m */,\n);" (by decide)⟩

/-- C2: an opened array header whose terminator (the captured indent
followed by `");"` and optional trailing whitespace) never appears
before end of input makes `sort_project_file` raise the structural
error, leaving the file contents on disk exactly as they were.  The
first part characterizes `readArrayEntries` failure as the absence of
any terminator line; the second part shows the failing run performs no
write. -/
theorem claim2_unterminated_array_aborts_without_write :
    (∀ (em : Line) (ls : List Line),
      readArrayEntries em ls = none ↔ ∀ x ∈ ls, isTerminatorLine em x = false) ∧
    ∀ (disk : String) (ci check : Bool),
      hasUnterminatedArray (splitOnNl disk.data) = true →
      sort_project_file ci check disk = Except.error disk := by
  constructor
  · intro em ls
    exact readArrayEntries_none_iff
  · intro disk ci check h
    have hnone : processContent ci disk = none := by
      rw [processContent, Option.map_eq_none']
      exact processLines_none_of_unterminated ci (splitOnNl disk.data).length _
        (Nat.le_refl _) h
    rw [sort_project_file, hnone]

theorem claim2_unterminated_array_aborts_without_write_witness :
    sort_project_file false false "children = (\nxx" =
      Except.error "children = (\nxx" :=
  claim2_unterminated_array_aborts_without_write.2 "children = (\nxx" false false (by decide)

/-- C3 counterexample: in normal (non-check) mode, on content that is
not already sorted, `sort_project_file` returns `true` even though the
processed output differs from the original content, so the boolean
result does not equal `newContent == originalContent` in every mode. -/
theorem claim3_counterexample_normal_mode_returns_true :
    sort_project_file false false
        "children = (\n\tBBBBBBBBBBBBBBBBBBBBBBBB /* b.m */,\n\tAAAAAAAAAAAAAAAAAAAAAAAA /* a.m */,\n);" =
      Except.ok
        ("children = (\n\tAAAAAAAAAAAAAAAAAAAAAAAA /* a.m */,\n\tBBBBBBBBBBBBBBBBBBBBBBBB /* b.m */,\n);",
          true) ∧
    ("children = (\n\tAAAAAAAAAAAAAAAAAAAAAAAA /* a.m */,\n\tBBBBBBBBBBBBBBBBBBBBBBBB /* b.m */,\n);" : String) ≠
      "children = (\n\tBBBBBBBBBBBBBBBBBBBBBBBB /* b.m */,\n\tAAAAAAAAAAAAAAAAAAAAAAAA /* a.m */,\n);" :=
  ⟨by decide, by decide⟩

/-- C3 amended: in check-only mode the boolean result equals
`newContent == originalContent`; in normal mode the function always
returns `true`, writing the sorted content (the disk afterwards holds
the sorted content exactly when it differed). -/
theorem claim3_amended_result_semantics (ci : Bool) (disk sc : String)
    (h : processContent ci disk = some sc) :
    sort_project_file ci true disk = Except.ok (disk, disk == sc) ∧
    sort_project_file ci false disk =
      Except.ok ((if disk == sc then disk else sc), true) := by
  constructor
  · rw [sort_project_file, h]
    rfl
  · rw [sort_project_file, h]
    by_cases he : disk == sc
    · simp only [he, if_true]
      rfl
    · simp only [he, Bool.false_eq_true, if_false]

theorem claim3_amended_result_semantics_witness :
    sort_project_file false true
        "children = (\n\tBBBBBBBBBBBBBBBBBBBBBBBB /* b.m */,\n\tAAAAAAAAAAAAAAAAAAAAAAAA /* a.m */,\n);" =
      Except.ok
        ("children = (\n\tBBBBBBBBBBBBBBBBBBBBBBBB /* b.m */,\n\tAAAAAAAAAAAAAAAAAAAAAAAA /* a.m */,\n);",
          ("children = (\n\tBBBBBBBBBBBBBBBBBBBBBBBB /* b.m */,\n\tAAAAAAAAAAAAAAAAAAAAAAAA /* a.m */,\n);" : String) ==
            "children = (\n\tAAAAAAAAAAAAAAAAAAAAAAAA /* a.m */,\n\tBBBBBBBBBBBBBBBBBBBBBBBB /* b.m */,\n);") ∧
    sort_project_file false false
        "children = (\n\tBBBBBBBBBBBBBBBBBBBBBBBB /* b.m */,\n\tAAAAAAAAAAAAAAAAAAAAAAAA /* a.m */,\n);" =
      Except.ok
        ((if ("children = (\n\tBBBBBBBBBBBBBBBBBBBBBBBB /* b.m */,\n\tAAAAAAAAAAAAAAAAAAAAAAAA /* a.m */,\n);" : String) ==
              "children = (\n\tAAAAAAAAAAAAAAAAAAAAAAAA /* a.m */,\n\tBBBBBBBBBBBBBBBBBBBBBBBB /* b.m */,\n);"
          then "children = (\n\tBBBBBBBBBBBBBBBBBBBBBBBB /* b.m */,\n\tAAAAAAAAAAAAAAAAAAAAAAAA /* a.m */,\n);"
          else "children = (\n\tAAAAAAAAAAAAAAAAAAAAAAAA /* a.m */,\n\tBBBBBBBBBBBBBBBBBBBBBBBB /* b.m */,\n);"),
          true) :=
  claim3_amended_result_semantics false _ _ (by decide)

end SortXcodeProj

namespace SortXcodeProj

end SortXcodeProj

namespace SortXcodeProj

/-- C6: from a line containing the frameworks begin marker through the
first line containing the end marker, every line is copied to the
output byte-identical and in its original position, with no sorting or
deduplication: the input splits as the copied block followed by the
rest, nothing before the block's last line contains the end marker, the
block ends at the first end-marker line when one exists, and the output
is literally the block followed by the processed rest. -/
theorem claim6_frameworks_block_verbatim (ci : Bool) (l : Line) (ls blk rest : List Line)
    (hB : containsSub beginFwMarker l = true)
    (ht : takeFw ls = (blk, rest)) :
    ls = blk ++ rest ∧
    (∀ x ∈ blk.dropLast, containsSub endFwMarker x = false) ∧
    (rest ≠ [] → ∃ e, blk.getLast? = some e ∧ containsSub endFwMarker e = true) ∧
    processLines ci (l :: ls) = (processLines ci rest).map fun o => l :: (blk ++ o) := by
  have hcl := classifyLine_beginFw_of_contains hB
  have hsplit := takeFw_split ls
  rw [ht] at hsplit
  refine ⟨hsplit, ?_, ?_, ?_⟩
  · rcases takeFw_cases ls with ⟨h2, h1⟩ | ⟨b0, e, hb, he, hno⟩
    · rw [ht] at h1
      intro x hx
      exact h1 x ((List.dropLast_sublist blk).subset hx)
    · rw [ht] at hb
      have hb' : blk = b0 ++ [e] := hb
      intro x hx
      rw [hb', List.dropLast_concat] at hx
      exact hno x hx
  · intro hrest
    rcases takeFw_cases ls with ⟨h2, h1⟩ | ⟨b0, e, hb, he, hno⟩
    · rw [ht] at h2
      exact absurd h2 hrest
    · rw [ht] at hb
      have hb' : blk = b0 ++ [e] := hb
      exact ⟨e, by rw [hb', List.getLast?_concat], he⟩
  · rw [processLines_beginFw ci ls hcl, ht]

theorem claim6_frameworks_block_verbatim_witness :
    processLines false ("/* Begin PBXFrameworksBuildPhase section */".data ::
        ["x".data, "/* End PBXFrameworksBuildPhase section */".data, "y".data]) =
      (processLines false ["y".data]).map fun o =>
        "/* Begin PBXFrameworksBuildPhase section */".data ::
          (["x".data, "/* End PBXFrameworksBuildPhase section */".data] ++ o) :=
  (claim6_frameworks_block_verbatim false
    "/* Begin PBXFrameworksBuildPhase section */".data
    ["x".data, "/* End PBXFrameworksBuildPhase section */".data, "y".data]
    ["x".data, "/* End PBXFrameworksBuildPhase section */".data] ["y".data]
    (by decide) (by decide)).2.2.2

/-- C7 counterexample: the comparison induced by `natural_sort_key` is
not defined — let alone a strict total order — on all strings: on
`"2²"` the tokenizer yields the non-digit run `"²"`, which passes
`str.isdigit`, so the program calls `int` on it and the raised
`ValueError` aborts the key computation. -/
theorem claim7_counterexample_key_undefined :
    natural_sort_key false ('2' :: ['\xb2']) = none := by decide

/-- C7 amended: restricted to strings whose key computation succeeds,
the comparison induced by `natural_sort_key` (for a fixed flag) is a
strict total order: comparison returns `.eq` exactly on equal keys,
`.lt` exactly when the reversed comparison returns `.gt`, at least one
and at most one of less / equal / greater holds, the order is
transitive across three defined keys, and equal strings always produce
equal (in particular equally defined) keys. -/
theorem claim7_amended_key_strict_total_order (ci : Bool) :
    (∀ (a b : Line) (ka kb : List NTok),
      natural_sort_key ci a = some ka → natural_sort_key ci b = some kb →
      (keyCmp ka kb = .eq ↔ ka = kb) ∧
      (keyCmp ka kb = .lt ↔ keyCmp kb ka = .gt) ∧
      (keyCmp ka kb = .lt ∨ ka = kb ∨ keyCmp kb ka = .lt) ∧
      ¬(keyCmp ka kb = .lt ∧ ka = kb) ∧
      ¬(keyCmp ka kb = .lt ∧ keyCmp kb ka = .lt) ∧
      ¬(ka = kb ∧ keyCmp kb ka = .lt)) ∧
    (∀ (a b c : Line) (ka kb kc : List NTok),
      natural_sort_key ci a = some ka → natural_sort_key ci b = some kb →
      natural_sort_key ci c = some kc →
      keyCmp ka kb = .lt → keyCmp kb kc = .lt → keyCmp ka kc = .lt) ∧
    (∀ a b : Line, a = b → natural_sort_key ci a = natural_sort_key ci b) := by
  have hswap := keyCmp_lawful.swap
  have heq := keyCmp_lawful.eq_iff
  refine ⟨?_, fun a b c ka kb kc _ _ _ h1 h2 => keyCmp_lawful.lt_trans h1 h2,
    fun a b h => by rw [h]⟩
  intro a b ka kb hka hkb
  refine ⟨heq _ _, ?_, ?_, ?_, ?_, ?_⟩
  · constructor
    · intro h
      rw [← hswap, h]
      rfl
    · intro h
      have := hswap ka kb
      rw [h] at this
      cases hk : keyCmp ka kb <;> rw [hk] at this <;> first | rfl | cases this
  · rcases hk : keyCmp ka kb with _ | _ | _
    · exact Or.inl rfl
    · exact Or.inr (Or.inl ((heq _ _).1 hk))
    · refine Or.inr (Or.inr ?_)
      have := hswap ka kb
      rw [hk] at this
      rw [← this]
      rfl
  · rintro ⟨h1, h2⟩
    rw [(heq _ _).2 h2] at h1
    cases h1
  · rintro ⟨h1, h2⟩
    have := hswap ka kb
    rw [h1] at this
    rw [h2] at this
    cases this
  · rintro ⟨h1, h2⟩
    rw [← h1, (heq _ _).2 rfl] at h2
    cases h2

theorem claim7_amended_key_strict_total_order_witness :
    keyCmp [NTok.num 1 1] [NTok.num 3 1] = .lt :=
  (claim7_amended_key_strict_total_order false).2.1 "1".data "2".data "3".data
    [NTok.num 1 1] [NTok.num 2 1] [NTok.num 3 1]
    (by decide) (by decide) (by decide) (by decide) (by decide)

/-- C8: `uniq` computes the first-occurrence deduplication: it equals
the specification recursion that keeps each head and deletes its later
copies, it is a subsequence of its input (so surviving lines keep their
relative order), its result has no duplicate lines, and it keeps
exactly the lines of the input. -/
theorem claim8_uniq_first_occurrence_dedup (l : List Line) :
    uniq l = specDedup l ∧
    List.Sublist (uniq l) l ∧
    (uniq l).Nodup ∧
    ∀ x : Line, x ∈ uniq l ↔ x ∈ l :=
  ⟨uniq_eq_specDedup l, uniq_sublist l, uniq_nodup l, fun x => mem_uniq l x⟩

end SortXcodeProj

namespace SortXcodeProj

/-- The key of the empty name is defined and empty. -/
theorem natural_sort_key_nil (ci : Bool) : natural_sort_key ci [] = some [] := rfl

/-- A defined key of a nonempty name is nonempty. -/
theorem natural_sort_key_some_ne_nil {ci : Bool} {s : Line} {k : List NTok}
    (hs : s ≠ []) (h : natural_sort_key ci s = some k) : k ≠ [] := by
  match s with
  | [] => exact absurd rfl hs
  | c :: cs =>
    rw [natural_sort_key, tokenize_cons] at h
    exact mapOpt_cons_ne_nil h

theorem is_directory_nil (ci : Bool) : is_directory ci [] = true := by
  cases ci <;> decide

/-- An empty extracted name makes the named-array key strictly least
among keys of nonempty names, whether those are defined or not. -/
theorem childKeyCmp_empty_name_lt (ci : Bool) {a b : Line}
    (ha : extractChildName a = []) (hb : extractChildName b ≠ []) :
    optCmp childKeyCmp (children_sort_key ci a) (children_sort_key ci b) = .lt := by
  have hka : children_sort_key ci a = some (false, []) := by
    rw [children_sort_key, ha, is_directory_nil ci]
    rfl
  have hform : children_sort_key ci b =
      (natural_sort_key ci (extractChildName b)).map
        fun k => (!is_directory ci (extractChildName b), k) := rfl
  rw [hka, hform]
  cases hnk : natural_sort_key ci (extractChildName b) with
  | none => rfl
  | some k =>
    match k, natural_sort_key_some_ne_nil hb hnk with
    | t :: k2, _ =>
      simp only [Option.map_some']
      show childKeyCmp (false, []) (!is_directory ci (extractChildName b), t :: k2) = .lt
      cases hdir : is_directory ci (extractChildName b) <;>
        simp [childKeyCmp, boolCmp, natCmp, keyCmp, listCmp, Ordering.then]

/-- An empty extracted name makes the files-array key strictly least
among keys of nonempty names, whether those are defined or not. -/
theorem filesKeyCmp_empty_name_lt (ci : Bool) {a b : Line}
    (ha : extractFileName a = []) (hb : extractFileName b ≠ []) :
    optCmp keyCmp (files_sort_key ci a) (files_sort_key ci b) = .lt := by
  have hka : files_sort_key ci a = some [] := by
    rw [files_sort_key, ha]
    rfl
  rw [hka, files_sort_key]
  cases hnk : natural_sort_key ci (extractFileName b) with
  | none => rfl
  | some k =>
    match k, natural_sort_key_some_ne_nil hb hnk with
    | t :: k2, _ =>
      show keyCmp [] (t :: k2) = .lt
      simp [keyCmp, listCmp]

/-- C9: an array-body line matching neither entry shape gets the empty
name; such lines are never dropped from the sorted body (membership is
preserved up to deduplication), and they sort strictly before every
line with a nonempty extracted name, hence occupy a prefix of the
sorted output in both array kinds. -/
theorem claim9_unmatched_entry_lines (ci : Bool) :
    (∀ l : Line, childCapture l = none → extractChildName l = []) ∧
    (∀ l : Line, fileCapture l = none → extractFileName l = []) ∧
    (∀ (body : List Line) (x : Line), x ∈ body →
      x ∈ sortChildrenBody ci body ∧ x ∈ sortFilesBody ci body) ∧
    (∀ a b : Line, extractChildName a = [] → extractChildName b ≠ [] →
      childrenLe ci a b ∧ ¬childrenLe ci b a) ∧
    (∀ a b : Line, extractFileName a = [] → extractFileName b ≠ [] →
      filesLe ci a b ∧ ¬filesLe ci b a) ∧
    (∀ (body : List Line) (i j : Fin (sortChildrenBody ci body).length),
      i < j → extractChildName ((sortChildrenBody ci body).get j) = [] →
      extractChildName ((sortChildrenBody ci body).get i) = []) ∧
    (∀ (body : List Line) (i j : Fin (sortFilesBody ci body).length),
      i < j → extractFileName ((sortFilesBody ci body).get j) = [] →
      extractFileName ((sortFilesBody ci body).get i) = []) := by
  have hchild : ∀ a b : Line, extractChildName a = [] → extractChildName b ≠ [] →
      childrenLe ci a b ∧ ¬childrenLe ci b a := by
    intro a b ha hb
    have hlt := childKeyCmp_empty_name_lt ci ha hb
    constructor
    · rw [childrenLe, hlt]
      simp
    · rw [childrenLe]
      have := (optCmp_lawful childKeyCmp_lawful).swap (children_sort_key ci a)
        (children_sort_key ci b)
      rw [hlt] at this
      simp only [not_not]
      rw [← this]
      rfl
  have hfile : ∀ a b : Line, extractFileName a = [] → extractFileName b ≠ [] →
      filesLe ci a b ∧ ¬filesLe ci b a := by
    intro a b ha hb
    have hlt := filesKeyCmp_empty_name_lt ci ha hb
    constructor
    · rw [filesLe, hlt]
      simp
    · rw [filesLe]
      have := (optCmp_lawful keyCmp_lawful).swap (files_sort_key ci a)
        (files_sort_key ci b)
      rw [hlt] at this
      simp only [not_not]
      rw [← this]
      rfl
  refine ⟨?_, ?_, ?_, hchild, hfile, ?_, ?_⟩
  · intro l h
    rw [extractChildName, h]
    rfl
  · intro l h
    rw [extractFileName, h]
    rfl
  · intro body x hx
    exact ⟨mem_sortChildrenBody.2 hx, mem_sortFilesBody.2 hx⟩
  · intro body i j hij hj
    by_contra hi
    have hrel := (sorted_sortChildrenBody ci body).rel_get_of_lt hij
    exact (hchild _ _ hj hi).2 hrel
  · intro body i j hij hj
    by_contra hi
    have hrel := (sorted_sortFilesBody ci body).rel_get_of_lt hij
    exact (hfile _ _ hj hi).2 hrel

theorem claim9_unmatched_entry_lines_witness :
    childrenLe false "junk line".data
        "AAAAAAAAAAAAAAAAAAAAAAAA /* a.m */,".data ∧
    ¬childrenLe false "AAAAAAAAAAAAAAAAAAAAAAAA /* a.m */,".data "junk line".data :=
  (claim9_unmatched_entry_lines false).2.2.2.1 "junk line".data
    "AAAAAAAAAAAAAAAAAAAAAAAA /* a.m */,".data (by decide) (by decide)

/-- C10: reaching end of input inside a frameworks pass-through block
is not an error: when a line contains the begin marker and no later
line contains the end marker, every remaining line is copied unchanged
and the scan completes normally (in contrast with C2's aborting
behaviour for unterminated arrays). -/
theorem claim10_unterminated_frameworks_completes (ci : Bool) (l : Line) (ls : List Line)
    (hB : containsSub beginFwMarker l = true)
    (hNoEnd : ∀ x ∈ ls, containsSub endFwMarker x = false) :
    processLines ci (l :: ls) = some (l :: ls) := by
  have hcl := classifyLine_beginFw_of_contains hB
  rw [processLines_beginFw ci ls hcl, takeFw_no_end hNoEnd]
  rw [processLines_nil]
  simp

theorem claim10_unterminated_frameworks_completes_witness :
    processLines false ("/* Begin PBXFrameworksBuildPhase section */".data ::
        ["foo".data, "bar".data]) =
      some ("/* Begin PBXFrameworksBuildPhase section */".data ::
        ["foo".data, "bar".data]) :=
  claim10_unterminated_frameworks_completes false
    "/* Begin PBXFrameworksBuildPhase section */".data ["foo".data, "bar".data]
    (by decide) (by decide)

end SortXcodeProj
